import Mathlib

set_option maxHeartbeats 1000000

/- Verification development for the KEngine gas-turbine performance library.

   The embedding models, from the source:
   * `performance.py`: the `Calculable` dependency-graph engine (`make_dirty`,
     `update`), and the `Splitter` / `Combustor` component physics;
   * `engines.py`: `EngineAssembly.calculate` (set inputs, mark the graph
     stale from the environment, propagate, aggregate, read outputs);
   * `solver.py`: the Newton solver `Solver.solve` with its numerically
     estimated Jacobian, instrumented with an evaluation counter.

   A `Calculable` network is represented as a `Graph`: node identifiers are
   natural numbers, `deps n` is the `dependents` list of node `n` and
   `precs n` its `precedents` list.  Mutable run state is a `St`: a value
   store indexed by location, the dirty flags, an `ab` flag recording that a
   Python exception (a failed assert or an exception escaping `calculate`)
   is propagating, and the list of nodes whose `calculate` ran, in order.
   Recursion over the object graph is modelled with explicit fuel. -/

structure Graph where
  deps : Nat → List Nat
  precs : Nat → List Nat

structure St (V : Type) where
  vals : Nat → V
  dirty : Nat → Bool
  ab : Bool
  order : List Nat

variable {V : Type}

/-- Source `Calculable.make_dirty`: set this node dirty, then recursively
mark every dependent dirty, with no check on the dependent's current flag. -/
def make_dirty (g : Graph) : Nat → Nat → (Nat → Bool) → (Nat → Bool)
  | 0, _, d => d
  | fuel + 1, n, d =>
      (g.deps n).foldl (fun d2 m => make_dirty g fuel m d2)
        (fun m => if m = n then true else d m)

/-- Source `Calculable.update`: assert the node is dirty (a fresh node raises,
modelled by setting `ab`); if some precedent is dirty, silently do nothing;
otherwise clear the dirty flag, run `calculate` (which may raise: `none`),
and then update every dependent in order.  Once an exception is propagating
(`ab`), every pending call does nothing. -/
def update (g : Graph) (cfn : Nat → (Nat → V) → Option (Nat → V)) :
    Nat → Nat → St V → St V
  | 0, _, s => s
  | fuel + 1, n, s =>
      if s.ab then s
      else if s.dirty n = false then { s with ab := true }
      else if (g.precs n).any s.dirty then s
      else
        match cfn n s.vals with
        | none =>
            { s with dirty := fun m => if m = n then false else s.dirty m,
                     ab := true }
        | some v2 =>
            (g.deps n).foldl (fun t d => update g cfn fuel d t)
              { vals := v2,
                dirty := fun m => if m = n then false else s.dirty m,
                ab := s.ab,
                order := s.order ++ [n] }

/-- Source `Component.__setitem__`: writing a parameter the component does not
declare raises a `LookupError`; a successful write marks the component and all
its transitive dependents dirty (the value write itself is orthogonal). -/
def Component.setitem (g : Graph) (fuel : Nat) (hasParam : Bool) (n : Nat)
    (d : Nat → Bool) : Option (Nat → Bool) :=
  if hasParam then some (make_dirty g fuel n d) else none

/-- Reachability along `dependents` edges, reflexively and transitively:
`Reaches g n m` holds when `m` is `n` itself or a transitive dependent. -/
inductive Reaches (g : Graph) : Nat → Nat → Prop
  | refl (n : Nat) : Reaches g n n
  | step {n m k : Nat} : m ∈ g.deps n → Reaches g m k → Reaches g n k

theorem reaches_of_dep {g : Graph} {n m : Nat} (h : m ∈ g.deps n) :
    Reaches g n m :=
  Reaches.step h (Reaches.refl m)

/-- The well-formedness invariant maintained by `update`: no node occurs twice
in the computation order, and every node that has computed is fresh. -/
def StInv (s : St V) : Prop :=
  s.order.Nodup ∧ ∀ m ∈ s.order, s.dirty m = false

/-- An acyclic four-node graph with a transitive `dependents` edge `0 → 2`
alongside the path `0 → 1 → 2`, and a further dependent `3` listed after `2`
in `deps 0`.  Buildable with the library's public connection API (for
example a compressor and a turbine both fed from one station and linked by a
shaft, with a further consumer of that station). -/
def g4 : Graph where
  deps := fun n => if n = 0 then [1, 2, 3] else if n = 1 then [2] else []
  precs := fun n =>
    if n = 1 then [0] else if n = 2 then [0, 1] else if n = 3 then [0] else []

/-- State of `g4` after a successful parameter write on node 0 marked the
whole graph dirty from a previously fresh state. -/
def s4 : St Unit :=
  { vals := fun _ => (), dirty := make_dirty g4 4 0 (fun _ => false),
    ab := false, order := [] }

/-- A two-node chain used as a concrete witness graph. -/
def g2 : Graph where
  deps := fun n => if n = 0 then [1] else []
  precs := fun n => if n = 1 then [0] else []

/-- A fully dirty unit-valued state over `g2`. -/
def s2 : St Unit :=
  { vals := fun _ => (), dirty := fun _ => true, ab := false, order := [] }

/-- A fully fresh unit-valued state over `g2`. -/
def s2f : St Unit :=
  { vals := fun _ => (), dirty := fun _ => false, ab := false, order := [] }

/-- Gas state at a station: total pressure, total temperature, mass flow. -/
structure Station where
  p : ℚ
  t : ℚ
  w : ℚ
deriving DecidableEq

/-- Source `Splitter.calculate`: exit 0 is the core flow, exit 1 the bypass
flow; `Wex1/Wex0 = BPR`, pressure and temperature pass through to both. -/
def Splitter.calculate (inlet : Station) (bpr : ℚ) : Station × Station :=
  (⟨inlet.p, inlet.t, inlet.w / (bpr + 1)⟩,
   ⟨inlet.p, inlet.t, inlet.w * bpr / (bpr + 1)⟩)

/-- Source `Combustor.calculate`: try the `deltaT` parameter first; if that
lookup raises, fall back to the fixed exit temperature `TEX` (whose absence
in turn raises, modelled by `none`); pressure and mass flow pass through. -/
def Combustor.calculate (inlet : Station) (deltaT TEX : Option ℚ) : Option Station :=
  match deltaT with
  | some dt => some ⟨inlet.p, inlet.t + dt, inlet.w⟩
  | none =>
      match TEX with
      | some tex => some ⟨inlet.p, tex, inlet.w⟩
      | none => none

/-- Python dicts of numbers are modelled as insertion-ordered association
lists; iteration order is list order, as in the source's dict loops. -/
abbrev Dict := List (String × ℚ)

/-- Exceptions the solver can raise: `KeyError` from a failed dict lookup,
`AssertionError` from the parity assert, `IndexError` from indexing an empty
or too-short sequence, and the iteration-limit `Exception`. -/
inductive SErr
  | keyError
  | assertError
  | indexError
  | iterLimit
deriving DecidableEq

/-- Dictionary lookup `d[k]`; `none` models a raised `KeyError`. -/
def dget : Dict → String → Option ℚ
  | [], _ => none
  | kv :: d, k => if kv.1 = k then some kv.2 else dget d k

/-- Sequential effectful map: the first raise aborts the rest, as a Python
comprehension would. -/
def mapME {α β : Type} (f : α → Except SErr β) : List α → Except SErr (List β)
  | [] => Except.ok []
  | a :: l =>
      match f a with
      | Except.error e => Except.error e
      | Except.ok b =>
          match mapME f l with
          | Except.error e => Except.error e
          | Except.ok l2 => Except.ok (b :: l2)

/-- Source `Solver.__init__` data: the wrapped engine's settable input
aliases, the `input_settings` as `(name, perturbation, sval)` in insertion
order, the wrapped engine's `calculate` as a function of the directly
applied input-alias assignments and the solver variables, and the external
linear-equation collaborator (`numpy.linalg.tensorsolve`). -/
structure SolverM where
  inputAliases : List String
  isets : List (String × ℚ × ℚ)
  calcFn : Dict → Dict → Dict
  linsolve : List (List ℚ) → List ℚ → List ℚ

/-- Lookup in `input_settings` by variable name. -/
def isetFind : List (String × ℚ × ℚ) → String → Option (ℚ × ℚ)
  | [], _ => none
  | xi :: l, x => if xi.1 = x then some xi.2 else isetFind l x

/-- Lookup of a Jacobian gradient row by variable name. -/
def rowFind : List (String × Dict) → String → Option Dict
  | [], _ => none
  | r :: l, x => if r.1 = x then some r.2 else rowFind l x

/-- Source `Solver.isconverged`: every error strictly below the convergence
criterion `1e-6` in absolute value. -/
def isconverged (errors : Dict) : Bool :=
  errors.all (fun e => decide (|e.2| < (1 : ℚ) / 1000000))

/-- Source line 70: the error vector `targets[z] - results[z]` is built over
ALL requested targets (the loop ranges over `targets`, not over
`solver_targets`), so a direct-input target name is looked up among the
engine outputs. -/
def mkErrors (targets results : Dict) : Except SErr Dict :=
  mapME (fun zt =>
    match dget results zt.1 with
    | none => Except.error SErr.keyError
    | some rv => Except.ok (zt.1, zt.2 - rv)) targets

/-- One gradient row of `generate_jacobian`: for each solver target,
`(perturbed output − baseline output) / perturbation`. -/
def gradientRow (tnames : List String) (defaults calcd : Dict) (pert : ℚ) :
    Except SErr Dict :=
  mapME (fun z =>
    match dget calcd z, dget defaults z with
    | some v, some d0 => Except.ok (z, (v - d0) / pert)
    | _, _ => Except.error SErr.keyError) tnames

/-- The perturbation loop of `Solver.generate_jacobian`: one engine
evaluation per input variable.  The second component counts engine
evaluations performed. -/
def jacLoop (M : SolverM) (direct : Dict) (tnames : List String)
    (defaults cur : Dict) :
    List (String × ℚ) → Except SErr (List (String × Dict)) × Nat
  | [] => (Except.ok [], 0)
  | xkv :: rest =>
      match isetFind M.isets xkv.1 with
      | none => (Except.error SErr.keyError, 0)
      | some pr =>
          let newVals := cur.map
            (fun kv => if kv.1 = xkv.1 then (kv.1, kv.2 + pr.1) else kv)
          let calcd := M.calcFn direct newVals
          match gradientRow tnames defaults calcd pr.1 with
          | Except.error e => (Except.error e, 1)
          | Except.ok row =>
              match jacLoop M direct tnames defaults cur rest with
              | (Except.error e, c) => (Except.error e, 1 + c)
              | (Except.ok rows, c) => (Except.ok ((xkv.1, row) :: rows), 1 + c)

/-- Source `Solver.generate_jacobian`: re-evaluate the engine at the current
iterate as a fresh baseline (`defaults`), then perturb each input in turn. -/
def generate_jacobian (M : SolverM) (direct : Dict) (tnames : List String)
    (cur : Dict) : Except SErr (List (String × Dict)) × Nat :=
  match jacLoop M direct tnames (M.calcFn direct cur) cur cur with
  | (res, c) => (res, 1 + c)

/-- Source `Solver.next_iteration`: build the Jacobian, take the variable
order `xs` from its keys and the target order `zs` from the first row's
keys (IndexError on no variables), assemble the square matrix with rows
indexed by targets and columns by variables, hand it with the error vector
to the external linear solver, and key the resulting corrections by
variable. -/
def next_iteration (M : SolverM) (direct : Dict) (tnames : List String)
    (values errors : Dict) : Except SErr Dict × Nat :=
  match generate_jacobian M direct tnames values with
  | (Except.error e, c) => (Except.error e, c)
  | (Except.ok gradients, c) =>
      match gradients with
      | [] => (Except.error SErr.indexError, c)
      | g0 :: _ =>
          let xs := gradients.map Prod.fst
          let zs := g0.2.map Prod.fst
          match mapME (fun z => mapME (fun x =>
              match rowFind gradients x with
              | none => Except.error SErr.keyError
              | some row =>
                  match dget row z with
                  | none => Except.error SErr.keyError
                  | some gv => Except.ok gv) xs) zs with
          | Except.error e => (Except.error e, c)
          | Except.ok jmat =>
              match mapME (fun z =>
                  match dget errors z with
                  | none => Except.error SErr.keyError
                  | some ev => Except.ok ev) zs with
              | Except.error e => (Except.error e, c)
              | Except.ok evec =>
                  let result := M.linsolve jmat evec
                  if xs.length ≤ result.length then
                    (Except.ok (xs.zip result), c)
                  else (Except.error SErr.indexError, c)

/-- Source line 79: `values = {x: values[x] + corrections[x]}`. -/
def applyCorrections (values corrections : Dict) : Except SErr Dict :=
  mapME (fun kv =>
    match dget corrections kv.1 with
    | none => Except.error SErr.keyError
    | some c => Except.ok (kv.1, kv.2 + c)) values

/-- The `while True` loop of `Solver.solve`: raise once the iteration
counter exceeds the limit 100, otherwise evaluate, build the error vector,
stop if converged, else take one Newton step.  Structural fuel keeps
`fuel + iteration = 102`, so the fuel-exhaustion branch is unreachable from
the entry point.  The second component counts engine evaluations. -/
def solveLoop (M : SolverM) (direct targets : Dict) (tnames : List String) :
    Nat → Nat → Dict → Except SErr Dict × Nat
  | 0, _, _ => (Except.error SErr.iterLimit, 0)
  | fuel + 1, iteration, values =>
      if 100 < iteration then (Except.error SErr.iterLimit, 0)
      else
        match mkErrors targets (M.calcFn direct values) with
        | Except.error e => (Except.error e, 1)
        | Except.ok errors =>
            if isconverged errors then (Except.ok values, 1)
            else
              match next_iteration M direct tnames values errors with
              | (Except.error e, c) => (Except.error e, 1 + c)
              | (Except.ok corrections, c) =>
                  match applyCorrections values corrections with
                  | Except.error e => (Except.error e, 1 + c)
                  | Except.ok values2 =>
                      match solveLoop M direct targets tnames fuel
                          (iteration + 1) values2 with
                      | (r, c2) => (r, 1 + c + c2)

/-- Source `Solver.solve`: partition the requested targets into direct
engine inputs (applied immediately) and solver targets, assert parity of
solver targets against solver variables, seed the iterate from the start
values, and run the Newton loop. -/
def solve (M : SolverM) (targets : Dict) : Except SErr Dict × Nat :=
  let direct := targets.filter (fun tv => M.inputAliases.contains tv.1)
  let solver_targets :=
    targets.filter (fun tv => !(M.inputAliases.contains tv.1))
  if solver_targets.length = M.isets.length then
    solveLoop M direct targets (solver_targets.map Prod.fst) 102 0
      (M.isets.map (fun xi => (xi.1, xi.2.2)))
  else (Except.error SErr.assertError, 0)

/-- One loop body as a pure function of the iterate: evaluate, stop at the
same value if converged (absorbing), else take the Newton step. -/
def chainStep (M : SolverM) (direct targets : Dict) (tnames : List String)
    (v : Dict) : Except SErr Dict :=
  match mkErrors targets (M.calcFn direct v) with
  | Except.error e => Except.error e
  | Except.ok errors =>
      if isconverged errors then Except.ok v
      else
        match next_iteration M direct tnames v errors with
        | (Except.error e, _) => Except.error e
        | (Except.ok corrections, _) => applyCorrections v corrections

/-- The solver's iterate sequence, absorbing at convergence. -/
def chain (M : SolverM) (direct targets : Dict) (tnames : List String)
    (v : Dict) : Nat → Except SErr Dict
  | 0 => Except.ok v
  | k + 1 =>
      match chain M direct targets tnames v k with
      | Except.error e => Except.error e
      | Except.ok vk => chainStep M direct targets tnames vk

/-- Whether the iterate at index `k` exists and passes the convergence
test. -/
def convAt (M : SolverM) (direct targets : Dict) (tnames : List String)
    (v : Dict) (k : Nat) : Bool :=
  match chain M direct targets tnames v k with
  | Except.error _ => false
  | Except.ok vk =>
      match mkErrors targets (M.calcFn direct vk) with
      | Except.error _ => false
      | Except.ok errors => isconverged errors

/-- A one-variable linear engine: the output `z` echoes the input `x`;
perturbation 1, start value 0.  The external linear solver solves the 1×1
system exactly. -/
def Mlin : SolverM where
  inputAliases := []
  isets := [("x", (1, 0))]
  calcFn := fun _ values => [("z", (dget values "x").getD 0)]
  linsolve := fun jmat evec =>
    match jmat, evec with
    | [[gz]], [ez] => [ez / gz]
    | _, _ => []

/-- Target `z = 10` for the linear engine: Newton converges in one step. -/
def Tlin : Dict := [("z", 10)]

/-- A solver configuration with a direct-input target: `FLOW` is a settable
input alias, the engine's outputs expose only `THRUST`. -/
def Mdir : SolverM where
  inputAliases := ["FLOW"]
  isets := [("RIT", (1, 0))]
  calcFn := fun _ _ => [("THRUST", 0)]
  linsolve := fun _ _ => [0]

/-- Targets with one direct input (`FLOW`) and one solver target. -/
def Tdir : Dict := [("FLOW", 500), ("THRUST", 1000)]

/-- The direct-input assignments `solve` applies before iterating. -/
def solveDirect (M : SolverM) (targets : Dict) : Dict :=
  targets.filter (fun tv => M.inputAliases.contains tv.1)

/-- The solver-target names in request order. -/
def solveTNames (M : SolverM) (targets : Dict) : List String :=
  (targets.filter (fun tv => !(M.inputAliases.contains tv.1))).map Prod.fst

/-- The start iterate built from the `sval` entries of `input_settings`. -/
def startValues (M : SolverM) : Dict :=
  M.isets.map (fun xi => (xi.1, xi.2.2))

/-- Whether an exception-monad computation succeeded. -/
def exOk {α : Type} : Except SErr α → Bool
  | Except.ok _ => true
  | Except.error _ => false

/-- Apply pure per-node `calculate` bodies along a computation order. -/
def applyOrder (cf : Nat → (Nat → V) → (Nat → V)) (l : List Nat)
    (v : Nat → V) : Nat → V :=
  l.foldl (fun v2 m => cf m v2) v

/-- A never-raising family of `calculate` bodies. -/
def totalCalc (cf : Nat → (Nat → V) → (Nat → V)) :
    Nat → (Nat → V) → Option (Nat → V) :=
  fun n v => some (cf n v)

/-- An `EngineAssembly` over the dependency graph.  Locations (`Nat`) hold
every mutable payload: station fields, component attributes, and the
engine-level aggregate attributes.  `cf n` is node `n`'s `calculate` body
as a state transformer with declared read set `readS n` and write set
`writeS n`; `env` is the environment node (the propagation root); `inputs`
lists the input-alias writes `(component node, location, value)` applied by
`set_inputs`; `aggregate` is `calculate_thrust` plus
`calculate_attributes`, with read set `readA` and write set `writeA`;
`outs` are the output-alias locations; `fmd` and `fup` are the recursion
fuels of marking and propagation. -/
structure EngModel (V : Type) where
  g : Graph
  cf : Nat → (Nat → V) → (Nat → V)
  readS : Nat → List Nat
  writeS : Nat → List Nat
  env : Nat
  inputs : List (Nat × Nat × V)
  aggregate : (Nat → V) → (Nat → V)
  readA : List Nat
  writeA : List Nat
  outs : List Nat
  fmd : Nat
  fup : Nat

/-- Source `EngineAssembly.set_input_alias` resolving to
`Component.__setitem__`: mark the target component and its transitive
dependents dirty, then store the value at the aliased location. -/
def setOneInput (M : EngModel V) (s : St V) (t : Nat × Nat × V) : St V :=
  { s with dirty := make_dirty M.g M.fmd t.1 s.dirty,
           vals := fun l => if l = t.2.1 then t.2.2 else s.vals l }

/-- Source `EngineAssembly.set_inputs`: apply every input write in order. -/
def set_inputs (M : EngModel V) (s : St V) : St V :=
  M.inputs.foldl (setOneInput M) s

/-- The value-store effect of a list of input writes. -/
def applyWrites (inputs : List (Nat × Nat × V)) (v : Nat → V) : Nat → V :=
  inputs.foldl (fun v2 t => fun l => if l = t.2.1 then t.2.2 else v2 l) v

/-- Source `Engine.update`: mark the graph stale from the environment,
propagate from the environment, and — when no exception escaped — compute
the aggregate attributes (`calculate_thrust`, `calculate_attributes`). -/
def engineUpdate (M : EngModel V) (s : St V) : St V :=
  let s2 := { s with dirty := make_dirty M.g M.fmd M.env s.dirty }
  let s3 := update M.g (totalCalc M.cf) M.fup M.env s2
  if s3.ab then s3 else { s3 with vals := M.aggregate s3.vals }

/-- Source `EngineAssembly.calculate`: apply the named inputs, run
`Engine.update`, and read the named outputs in declaration order. -/
def EngModel.calculate (M : EngModel V) (s : St V) : St V × List V :=
  let s4 := engineUpdate M (set_inputs M s)
  (s4, M.outs.map s4.vals)

/-- A tiny concrete engine over `Int` values: node 0 is the environment,
node 1 a component adding its parameter (location 1) to the environment
value (location 0) into its exit station (location 2), node 2 that station;
the aggregate doubles the station value into the output location 3. -/
def M3 : EngModel Int where
  g := { deps := fun n => if n = 0 then [1] else if n = 1 then [2] else [],
         precs := fun n => if n = 1 then [0] else if n = 2 then [1] else [] }
  cf := fun n v =>
    if n = 1 then (fun l => if l = 2 then v 0 + v 1 else v l) else v
  readS := fun n => if n = 1 then [0, 1] else []
  writeS := fun n => if n = 1 then [2] else []
  env := 0
  inputs := [(1, 1, 5)]
  aggregate := fun v => fun l => if l = 3 then 2 * v 2 else v l
  readA := [2]
  writeA := [3]
  outs := [3]
  fmd := 3
  fup := 5

/-- The all-dirty construction state of the `M3` engine. -/
def s3 : St Int :=
  { vals := fun _ => 0, dirty := fun _ => true, ab := false, order := [] }

/-- The set of flags `make_dirty` sets when starting from no flags. -/
def mdMask (g : Graph) (fuel n : Nat) : Nat → Bool :=
  make_dirty g fuel n (fun _ => false)

/-- A property preserved by every fold step is preserved by the fold. -/
theorem foldl_pres {α β : Type} (P : α → Prop) (f : α → β → α)
    (hf : ∀ a b, P a → P (f a b)) :
    ∀ (l : List β) (a : α), P a → P (l.foldl f a)
  | [], _, h => h
  | b :: l, a, h => foldl_pres P f hf l (f a b) (hf a b h)

/-- Marking is monotone: a flag that is already set stays set. -/
theorem make_dirty_mono (g : Graph) :
    ∀ (fuel n : Nat) (d : Nat → Bool) (m : Nat),
      d m = true → make_dirty g fuel n d m = true := by
  intro fuel
  induction fuel with
  | zero => intro n d m h; simpa [make_dirty] using h
  | succ fuel ih =>
    intro n d m h
    have hb : (fun m2 => if m2 = n then true else d m2) m = true := by
      by_cases hm : m = n <;> simp [hm, h]
    exact foldl_pres (fun d2 => d2 m = true)
      (fun d2 x => make_dirty g fuel x d2)
      (fun d2 x hp => ih x d2 m hp) (g.deps n)
      (fun m2 => if m2 = n then true else d m2) hb

/-- Inversion for `Reaches`: `m` is reached from `n` iff it is `n` itself or
reached from some direct dependent of `n`. -/
theorem reaches_iff (g : Graph) (n m : Nat) :
    Reaches g n m ↔ m = n ∨ ∃ x ∈ g.deps n, Reaches g x m := by
  constructor
  · intro h
    cases h with
    | refl => exact Or.inl rfl
    | step hx hr => exact Or.inr ⟨_, hx, hr⟩
  · rintro (rfl | ⟨x, hx, hr⟩)
    · exact Reaches.refl m
    · exact Reaches.step hx hr

/-- Characterisation of a fold of `make_dirty` calls over a list of start
nodes, assuming the characterisation for each single call. -/
theorem make_dirty_foldl_char (g : Graph) (rank : Nat → Nat) (fuel : Nat)
    (ih : ∀ (n : Nat) (d : Nat → Bool) (m : Nat), rank n < fuel →
      (make_dirty g fuel n d m = true ↔ d m = true ∨ Reaches g n m)) :
    ∀ (l : List Nat) (b : Nat → Bool) (m : Nat), (∀ x ∈ l, rank x < fuel) →
      ((l.foldl (fun d2 x => make_dirty g fuel x d2) b) m = true ↔
        b m = true ∨ ∃ x ∈ l, Reaches g x m) := by
  intro l
  induction l with
  | nil => intro b m _; simp
  | cons x xs ihl =>
    intro b m hl
    have hx : rank x < fuel := hl x (List.mem_cons_self x xs)
    have hxs : ∀ y ∈ xs, rank y < fuel := fun y hy => hl y (List.mem_cons_of_mem x hy)
    have h1 := ihl (make_dirty g fuel x b) m hxs
    simp only [List.foldl_cons]
    rw [h1, ih x b m hx]
    constructor
    · rintro ((hb | hr) | ⟨y, hy, hr⟩)
      · exact Or.inl hb
      · exact Or.inr ⟨x, List.mem_cons_self x xs, hr⟩
      · exact Or.inr ⟨y, List.mem_cons_of_mem x hy, hr⟩
    · rintro (hb | ⟨y, hy, hr⟩)
      · exact Or.inl (Or.inl hb)
      · rcases List.mem_cons.mp hy with rfl | hy2
        · exact Or.inl (Or.inr hr)
        · exact Or.inr ⟨y, hy2, hr⟩

/-- With enough fuel on an acyclic graph (witnessed by a rank function that
strictly decreases along `dependents` edges), `make_dirty` sets exactly the
previously dirty flags plus every node reachable through dependents: full
recursive propagation with no short-circuiting on already-dirty nodes. -/
theorem make_dirty_spec (g : Graph) (rank : Nat → Nat)
    (hrank : ∀ u v, v ∈ g.deps u → rank v < rank u) :
    ∀ (fuel n : Nat), rank n < fuel → ∀ (d : Nat → Bool) (m : Nat),
      (make_dirty g fuel n d m = true ↔ d m = true ∨ Reaches g n m) := by
  intro fuel
  induction fuel with
  | zero => intro n hn; omega
  | succ fuel ih =>
    intro n hn d m
    have hdeps : ∀ x ∈ g.deps n, rank x < fuel := by
      intro x hx
      exact lt_of_lt_of_le (hrank n x hx) (Nat.lt_succ_iff.mp hn)
    have hchar := make_dirty_foldl_char g rank fuel
      (fun n2 d2 m2 h2 => ih n2 h2 d2 m2) (g.deps n)
      (fun m2 => if m2 = n then true else d m2) m hdeps
    show ((g.deps n).foldl (fun d2 x => make_dirty g fuel x d2) _) m = true ↔ _
    rw [hchar, reaches_iff g n m]
    by_cases hm : m = n <;> simp [hm]

theorem update_inv (g : Graph) (cfn : Nat → (Nat → V) → Option (Nat → V)) :
    ∀ (fuel n : Nat) (s : St V), StInv s → StInv (update g cfn fuel n s) := by
  intro fuel
  induction fuel with
  | zero => intro n s h; exact h
  | succ fuel ih =>
    intro n s h
    show StInv (if s.ab then s else _)
    by_cases hab : s.ab
    · simpa [hab] using h
    · simp only [hab, if_false]
      by_cases hdn : s.dirty n = false
      · simpa [hdn] using h
      · simp only [hdn, if_false]
        by_cases hblk : (g.precs n).any s.dirty
        · simpa [hblk] using h
        · simp only [hblk, if_false]
          cases hc : cfn n s.vals with
          | none =>
            refine ⟨h.1, ?_⟩
            intro m hm
            by_cases hmn : m = n <;> simp [hmn, h.2 m hm]
          | some v2 =>
            apply foldl_pres StInv (fun t d => update g cfn fuel d t)
              (fun t d ht => ih d t ht)
            constructor
            · have hnotin : n ∉ s.order := by
                intro hin
                exact hdn (h.2 n hin)
              simp [List.nodup_append, h.1, hnotin]
            · intro m hm
              rcases List.mem_append.mp hm with hm2 | hm2
              · by_cases hmn : m = n <;> simp [hmn, h.2 m hm2]
              · simp [List.mem_singleton.mp hm2]

/-- C1, counterexample.  On the acyclic graph `g4`, after a successful
parameter write on node 0 its transitive dependents 1, 2, 3 are all stale,
but the driven `update` from node 0 recomputes 2 through the path
`0 → 1 → 2` and then revisits it through the direct edge `0 → 2`, firing the
`assert self.dirty` on the now-fresh node 2: the run aborts with an
assertion error and the stale dependent 3 is never recomputed.  So it is
not the case that, on every acyclic graph, `update` recomputes every stale
dependent exactly once. -/
theorem C1_counterexample :
    s4.dirty 1 = true ∧ s4.dirty 2 = true ∧ s4.dirty 3 = true ∧
    (update g4 (fun _ v => some v) 9 0 s4).ab = true ∧
    (update g4 (fun _ v => some v) 9 0 s4).dirty 3 = true ∧
    (update g4 (fun _ v => some v) 9 0 s4).order = [0, 1, 2] := by
  decide

/-- C1, amended.  (i) After any successful parameter write through
`Component.__setitem__` on an acyclic graph (given enough fuel for the
recursion), the stale set is exactly the previously stale nodes plus the
written node and all of its transitive dependents: propagation recurses
through every dependent with no short-circuiting on already-stale nodes.
(ii) A subsequent `update` driven from any root recomputes each node at
most once: the computation order never repeats a node.  (Exactly-once fails
on some acyclic graphs: see the counterexample, where the run aborts on an
already-fresh node and misses a stale dependent.) -/
theorem C1_staleness_propagation_amended (V : Type) :
    (∀ (g : Graph) (rank : Nat → Nat),
      (∀ u v, v ∈ g.deps u → rank v < rank u) →
      ∀ (fuel n : Nat), rank n < fuel →
      ∀ (hasParam : Bool) (d d2 : Nat → Bool),
        Component.setitem g fuel hasParam n d = some d2 →
        ∀ m, (d2 m = true ↔ d m = true ∨ Reaches g n m)) ∧
    (∀ (g : Graph) (cfn : Nat → (Nat → V) → Option (Nat → V))
        (fuel root : Nat) (s : St V),
        s.order = [] → (update g cfn fuel root s).order.Nodup) := by
  constructor
  · intro g rank hrank fuel n hn hasParam d d2 hset m
    have hd2 : d2 = make_dirty g fuel n d := by
      cases hasParam with
      | false => simp [Component.setitem] at hset
      | true =>
        simp only [Component.setitem, if_true] at hset
        exact (Option.some_inj.mp hset).symm
    rw [hd2]
    exact make_dirty_spec g rank hrank fuel n hn d m
  · intro g cfn fuel root s hord
    have h := update_inv g cfn fuel root s
      ⟨by simp [hord], by simp [hord]⟩
    exact h.1

/-- Witness for the amended C1 on the concrete chain `g2`: the marking
reaches the dependent node 1, and a driven update has a duplicate-free
computation order. -/
theorem C1_staleness_propagation_amended_witness :
    make_dirty g2 2 0 (fun _ => false) 1 = true ∧
    (update g2 (fun _ v => some v) 5 0 s2).order.Nodup := by
  constructor
  · refine ((C1_staleness_propagation_amended Unit).1 g2 (fun n => 1 - n)
      ?_ 2 0 (by decide) true (fun _ => false)
      (make_dirty g2 2 0 (fun _ => false)) rfl 1).mpr ?_
    · intro u v hv
      by_cases hu : u = 0
      · subst hu
        simp [g2] at hv
        subst hv
        decide
      · simp [g2, hu] at hv
    · exact Or.inr (reaches_of_dep (by decide))
  · exact (C1_staleness_propagation_amended Unit).2 g2 (fun _ v => some v)
      5 0 s2 rfl

/-- C2.  `update` on a fresh node fires the assertion (the run aborts), and
`update` on a stale node with a stale precedent is a complete no-op: the
node stays stale, its `calculate` does not run, and no dependent is
touched. -/
theorem C2_update_guards (V : Type) (g : Graph)
    (cfn : Nat → (Nat → V) → Option (Nat → V)) (fuel n : Nat) (s : St V) :
    (s.ab = false → s.dirty n = false →
      update g cfn (fuel + 1) n s = { s with ab := true }) ∧
    (s.dirty n = true → (g.precs n).any s.dirty = true →
      update g cfn fuel n s = s) := by
  constructor
  · intro hab hdn
    show (if s.ab then s else _) = _
    simp [hab, hdn]
  · intro hdn hblk
    cases fuel with
    | zero => rfl
    | succ fuel =>
      show (if s.ab then s else _) = _
      by_cases hab : s.ab
      · simp [hab]
      · simp [hab, hdn, hblk]

/-- Witness for C2 on the chain `g2`: updating the fresh node 0 aborts, and
updating the stale node 1 while its precedent 0 is stale changes nothing. -/
theorem C2_update_guards_witness :
    update g2 (fun _ v => some v) 1 0 s2f = { s2f with ab := true } ∧
    update g2 (fun _ v => some v) 3 1 s2 = s2 :=
  ⟨(C2_update_guards Unit g2 (fun _ v => some v) 0 0 s2f).1 rfl rfl,
   (C2_update_guards Unit g2 (fun _ v => some v) 3 1 s2).2 rfl rfl⟩

/-- C10.  When a stale node with fresh precedents computes, the dirty flag
is cleared before `calculate` runs; if `calculate` raises, the node is left
marked fresh although its physical law never completed, the exception
propagates, and no dependent is updated: recomputation is not atomic with
respect to the staleness state on error. -/
theorem C10_update_not_atomic (V : Type) (g : Graph)
    (cfn : Nat → (Nat → V) → Option (Nat → V)) (fuel n : Nat) (s : St V)
    (hab : s.ab = false) (hdn : s.dirty n = true)
    (hblk : (g.precs n).any s.dirty = false) (hc : cfn n s.vals = none) :
    (update g cfn (fuel + 1) n s).dirty n = false ∧
    (update g cfn (fuel + 1) n s).ab = true ∧
    (update g cfn (fuel + 1) n s).vals = s.vals ∧
    (update g cfn (fuel + 1) n s).order = s.order ∧
    ∀ m, m ≠ n → (update g cfn (fuel + 1) n s).dirty m = s.dirty m := by
  have hstep : update g cfn (fuel + 1) n s =
      { s with dirty := fun m => if m = n then false else s.dirty m,
               ab := true } := by
    show (if s.ab then s else _) = _
    simp [hab, hdn, hblk, hc]
  rw [hstep]
  refine ⟨by simp, rfl, rfl, rfl, ?_⟩
  intro m hm
  simp [hm]

/-- Witness for C10 on the chain `g2`: node 0 is stale with no precedents,
its `calculate` raises, and the state afterwards has node 0 fresh while
nothing else changed. -/
theorem C10_update_not_atomic_witness :
    (update g2 (fun _ _ => none) 4 0 s2).dirty 0 = false ∧
    (update g2 (fun _ _ => none) 4 0 s2).ab = true ∧
    (update g2 (fun _ _ => none) 4 0 s2).vals = s2.vals ∧
    (update g2 (fun _ _ => none) 4 0 s2).order = s2.order ∧
    ∀ m, m ≠ 0 → (update g2 (fun _ _ => none) 4 0 s2).dirty m = s2.dirty m :=
  C10_update_not_atomic Unit g2 (fun _ _ => none) 3 0 s2 rfl rfl rfl rfl

/-- C7.  For any inlet flow and any bypass ratio `BPR ≥ 0`, the splitter
sets the core exit mass flow to `w/(BPR+1)` and the bypass exit mass flow to
`w·BPR/(BPR+1)`, the two exit mass flows sum exactly to the inlet mass flow,
and both exits receive the inlet pressure and temperature unchanged. -/
theorem C7_splitter_mass_conservation (inlet : Station) (bpr : ℚ)
    (hbpr : 0 ≤ bpr) :
    (Splitter.calculate inlet bpr).1.w = inlet.w / (bpr + 1) ∧
    (Splitter.calculate inlet bpr).2.w = inlet.w * bpr / (bpr + 1) ∧
    (Splitter.calculate inlet bpr).1.w + (Splitter.calculate inlet bpr).2.w
      = inlet.w ∧
    (Splitter.calculate inlet bpr).1.p = inlet.p ∧
    (Splitter.calculate inlet bpr).1.t = inlet.t ∧
    (Splitter.calculate inlet bpr).2.p = inlet.p ∧
    (Splitter.calculate inlet bpr).2.t = inlet.t := by
  have hb : bpr + 1 ≠ 0 := by
    intro h
    nlinarith [hbpr]
  refine ⟨rfl, rfl, ?_, rfl, rfl, rfl, rfl⟩
  show inlet.w / (bpr + 1) + inlet.w * bpr / (bpr + 1) = inlet.w
  field_simp
  ring

/-- Witness for C7: inlet `(p, t, w) = (30000, 300, 12)` with `BPR = 3`
splits into core mass flow 3 and bypass mass flow 9. -/
theorem C7_splitter_mass_conservation_witness :
    (0 : ℚ) ≤ 3 ∧
    (Splitter.calculate ⟨30000, 300, 12⟩ 3).1.w = 12 / (3 + 1) ∧
    (Splitter.calculate ⟨30000, 300, 12⟩ 3).1.w
      + (Splitter.calculate ⟨30000, 300, 12⟩ 3).2.w = 12 :=
  ⟨by norm_num,
   (C7_splitter_mass_conservation ⟨30000, 300, 12⟩ 3 (by norm_num)).1,
   (C7_splitter_mass_conservation ⟨30000, 300, 12⟩ 3 (by norm_num)).2.2.1⟩

/-- C8.  When the combustor's parameter set contains a temperature delta
`deltaT`, `calculate` sets exit pressure and mass flow to the inlet values
and exit temperature to inlet temperature plus the delta, regardless of any
`TEX` parameter (the delta takes precedence), so reading back
`exit.t - inlet.t` reproduces the written delta exactly. -/
theorem C8_combustor_delta_roundtrip (inlet : Station) (dt : ℚ)
    (TEX : Option ℚ) :
    Combustor.calculate inlet (some dt) TEX
      = some ⟨inlet.p, inlet.t + dt, inlet.w⟩ ∧
    ∀ ex : Station, Combustor.calculate inlet (some dt) TEX = some ex →
      ex.t - inlet.t = dt ∧ ex.p = inlet.p ∧ ex.w = inlet.w := by
  refine ⟨rfl, ?_⟩
  intro ex hex
  have hx : ex = ⟨inlet.p, inlet.t + dt, inlet.w⟩ := by
    exact (Option.some_inj.mp hex).symm
  subst hx
  refine ⟨by ring, rfl, rfl⟩

/-- Witness for C8: inlet `(30000, 300, 1)` with `deltaT = 200` and a
competing `TEX = 1600` yields exit temperature 500, and the read-back delta
is 200. -/
theorem C8_combustor_delta_roundtrip_witness :
    Combustor.calculate ⟨30000, 300, 1⟩ (some 200) (some 1600)
      = some ⟨30000, 300 + 200, 1⟩ ∧
    ∀ ex : Station,
      Combustor.calculate ⟨30000, 300, 1⟩ (some 200) (some 1600) = some ex →
      ex.t - 300 = 200 :=
  ⟨(C8_combustor_delta_roundtrip ⟨30000, 300, 1⟩ 200 (some 1600)).1,
   fun ex hex =>
     ((C8_combustor_delta_roundtrip ⟨30000, 300, 1⟩ 200 (some 1600)).2
       ex hex).1⟩

/-- Shifting the iterate chain by its own first step. -/
theorem chain_shift (M : SolverM) (direct targets : Dict)
    (tnames : List String) {v v2 : Dict}
    (h : chainStep M direct targets tnames v = Except.ok v2) :
    ∀ k, chain M direct targets tnames v (k + 1) =
      chain M direct targets tnames v2 k := by
  intro k
  induction k with
  | zero => simp [chain, h]
  | succ k ih =>
    show (match chain M direct targets tnames v (k + 1) with
      | Except.error e => Except.error e
      | Except.ok vk => chainStep M direct targets tnames vk) = _
    rw [ih]
    rfl

/-- Once a step maps an iterate to itself, the chain is constant at it. -/
theorem chain_stable (M : SolverM) (direct targets : Dict)
    (tnames : List String) {v : Dict}
    (h : chainStep M direct targets tnames v = Except.ok v) :
    ∀ k, chain M direct targets tnames v k = Except.ok v := by
  intro k
  induction k with
  | zero => rfl
  | succ k ih => simp [chain, ih, h]

/-- Shifting the convergence test along the first chain step. -/
theorem convAt_shift (M : SolverM) (direct targets : Dict)
    (tnames : List String) {v v2 : Dict}
    (h : chainStep M direct targets tnames v = Except.ok v2) (k : Nat) :
    convAt M direct targets tnames v (k + 1)
      = convAt M direct targets tnames v2 k := by
  unfold convAt
  rw [chain_shift M direct targets tnames h k]

/-- A successful effectful map preserves length. -/
theorem mapME_length {α β : Type} (f : α → Except SErr β) :
    ∀ (l : List α) (l2 : List β),
      mapME f l = Except.ok l2 → l2.length = l.length := by
  intro l
  induction l with
  | nil =>
    intro l2 h
    simp only [mapME] at h
    cases h
    rfl
  | cons a l ih =>
    intro l2 h
    simp only [mapME] at h
    cases hfa : f a with
    | error e => rw [hfa] at h; cases h
    | ok b =>
      rw [hfa] at h
      cases hrest : mapME f l with
      | error e => rw [hrest] at h; cases h
      | ok lr =>
        rw [hrest] at h
        cases h
        simp [ih lr hrest]

/-- On success, the Jacobian perturbation loop performs exactly one engine
evaluation per input variable. -/
theorem jacLoop_count (M : SolverM) (direct : Dict) (tnames : List String)
    (defaults cur : Dict) :
    ∀ (l : List (String × ℚ)) (rows : List (String × Dict)) (c : Nat),
      jacLoop M direct tnames defaults cur l = (Except.ok rows, c) →
      c = l.length := by
  intro l
  induction l with
  | nil =>
    intro rows c h
    simp only [jacLoop] at h
    cases h
    rfl
  | cons xkv rest ih =>
    intro rows c h
    simp only [jacLoop] at h
    cases hfind : isetFind M.isets xkv.1 with
    | none => simp [hfind] at h
    | some pr =>
      simp only [hfind] at h
      cases hrow : gradientRow tnames defaults
          (M.calcFn direct (cur.map (fun kv =>
            if kv.1 = xkv.1 then (kv.1, kv.2 + pr.1) else kv))) pr.1 with
      | error e => simp [hrow] at h
      | ok row =>
        simp only [hrow] at h
        cases hrest : jacLoop M direct tnames defaults cur rest with
        | mk res crest =>
          simp only [hrest] at h
          cases res with
          | error e => simp at h
          | ok rows2 =>
            have hc := ih rows2 crest hrest
            simp only [List.length_cons, hc]
            simp at h
            omega

/-- The evaluation count of `next_iteration` is the count reported by
`generate_jacobian`, on every path. -/
theorem next_iteration_snd (M : SolverM) (direct : Dict)
    (tnames : List String) (values errors : Dict) :
    (next_iteration M direct tnames values errors).2
      = (generate_jacobian M direct tnames values).2 := by
  unfold next_iteration
  split <;> rename_i heq
  · rw [heq]
  · rw [heq]
    dsimp only
    split
    · rfl
    · split
      · rfl
      · split
        · rfl
        · split <;> rfl

/-- The count of `generate_jacobian` is one baseline evaluation plus the
perturbation-loop count. -/
theorem generate_jacobian_snd (M : SolverM) (direct : Dict)
    (tnames : List String) (cur : Dict) :
    (generate_jacobian M direct tnames cur).2
      = 1 + (jacLoop M direct tnames (M.calcFn direct cur) cur cur).2 := by
  unfold generate_jacobian
  cases jacLoop M direct tnames (M.calcFn direct cur) cur cur with
  | mk res c => rfl

/-- A successful `next_iteration` implies the perturbation loop succeeded. -/
theorem next_iteration_ok_jac (M : SolverM) (direct : Dict)
    (tnames : List String) (values errors corrections : Dict)
    (h : (next_iteration M direct tnames values errors).1
      = Except.ok corrections) :
    ∃ rows, (jacLoop M direct tnames (M.calcFn direct values)
      values values).1 = Except.ok rows := by
  unfold next_iteration generate_jacobian at h
  cases hjl : jacLoop M direct tnames (M.calcFn direct values) values values
    with
  | mk res cj =>
    rw [hjl] at h
    cases res with
    | error e => simp at h
    | ok gradients => exact ⟨gradients, rfl⟩

/-- On success, `next_iteration` reports one baseline plus one evaluation
per variable: `values.length + 1` engine evaluations. -/
theorem next_iteration_count (M : SolverM) (direct : Dict)
    (tnames : List String) (values errors corrections : Dict) (c : Nat)
    (h : next_iteration M direct tnames values errors
      = (Except.ok corrections, c)) :
    c = values.length + 1 := by
  have h1 : (next_iteration M direct tnames values errors).1
      = Except.ok corrections := by rw [h]
  have h2 : (next_iteration M direct tnames values errors).2 = c := by rw [h]
  obtain ⟨rows, hrows⟩ :=
    next_iteration_ok_jac M direct tnames values errors corrections h1
  cases hjl : jacLoop M direct tnames (M.calcFn direct values) values values
    with
  | mk res cj =>
    rw [hjl] at hrows
    cases res with
    | error e => simp at hrows
    | ok rows2 =>
      have hres : rows2 = rows := by simpa using hrows
      subst hres
      have hcj : cj = values.length :=
        jacLoop_count M direct tnames (M.calcFn direct values) values values
          rows2 cj hjl
      have := next_iteration_snd M direct tnames values errors
      rw [h2, generate_jacobian_snd, hjl] at this
      simp at this
      omega

/-- A successful correction step preserves the number of variables. -/
theorem applyCorrections_length (values corrections values2 : Dict)
    (h : applyCorrections values corrections = Except.ok values2) :
    values2.length = values.length := by
  exact mapME_length _ values values2 h

/-- When the parity assert passes, `solve` is the Newton loop started at
iteration 0 with fuel 102 from the start values. -/
theorem solve_eq_loop (M : SolverM) (targets : Dict)
    (hpar : (targets.filter
      (fun tv => !(M.inputAliases.contains tv.1))).length = M.isets.length) :
    solve M targets = solveLoop M (solveDirect M targets) targets
      (solveTNames M targets) 102 0 (startValues M) := by
  unfold solve solveDirect solveTNames startValues
  simp only [hpar, if_true]

/-- Master description of the Newton loop.  Provided every iterate through
index 101 exists (no lookup or indexing error on the path), then: (a) if no
iterate through index 100 satisfies the convergence test, the loop raises
the iteration-limit error; (b) if the first converged iterate has index
`k ≤ 100`, the loop returns exactly that iterate, after
`k * (number of variables + 2) + 1` engine evaluations: each non-converged
iteration costs one error-vector evaluation, one fresh Jacobian baseline and
one evaluation per variable, and the final converged iteration costs one. -/
theorem solveLoop_spec (M : SolverM) (direct targets : Dict)
    (tnames : List String) :
    ∀ (fuel iteration : Nat) (values : Dict), fuel + iteration = 102 →
      (∀ k, iteration + k ≤ 101 →
        exOk (chain M direct targets tnames values k) = true) →
      ((∀ k, iteration + k ≤ 100 →
          convAt M direct targets tnames values k = false) →
        (solveLoop M direct targets tnames fuel iteration values).1
          = Except.error SErr.iterLimit) ∧
      (∀ k, iteration + k ≤ 100 →
        (∀ j, j < k → convAt M direct targets tnames values j = false) →
        convAt M direct targets tnames values k = true →
        ∃ vk, chain M direct targets tnames values k = Except.ok vk ∧
          solveLoop M direct targets tnames fuel iteration values
            = (Except.ok vk, k * (values.length + 2) + 1)) := by
  intro fuel
  induction fuel with
  | zero =>
    intro iteration values harith hok
    constructor
    · intro _
      rfl
    · intro k hk _ _
      omega
  | succ fuel ih =>
    intro iteration values harith hok
    by_cases hit : 100 < iteration
    · constructor
      · intro _
        simp only [solveLoop, hit, if_true]
      · intro k hk _ _
        omega
    · have hchain1 : exOk (chain M direct targets tnames values 1) = true :=
        hok 1 (by omega)
      have hchain1' : chain M direct targets tnames values 1
          = chainStep M direct targets tnames values := by
        simp [chain]
      rw [hchain1'] at hchain1
      cases hcs : chainStep M direct targets tnames values with
      | error e => rw [hcs] at hchain1; simp [exOk] at hchain1
      | ok v2 =>
        unfold chainStep at hcs
        cases hme : mkErrors targets (M.calcFn direct values) with
        | error e => rw [hme] at hcs; cases hcs
        | ok errors =>
          rw [hme] at hcs
          have hconv0 : convAt M direct targets tnames values 0
              = isconverged errors := by
            simp [convAt, chain, hme]
          cases hconvb : isconverged errors with
          | true =>
            -- already converged at this iterate
            simp [hconvb] at hcs
            constructor
            · intro hnc
              have := hnc 0 (by omega)
              rw [hconv0, hconvb] at this
              cases this
            · intro k hk hbefore hconvk
              cases k with
              | zero =>
                refine ⟨values, rfl, ?_⟩
                simp only [solveLoop, hit, if_false, hme, hconvb, if_true]
                simp
              | succ kk =>
                have := hbefore 0 (by omega)
                rw [hconv0, hconvb] at this
                cases this
          | false =>
            simp [hconvb] at hcs
            cases hni : next_iteration M direct tnames values errors with
            | mk nir nic =>
              rw [hni] at hcs
              cases nir with
              | error e => simp at hcs
              | ok corrections =>
                simp only at hcs
                have hcsfull : chainStep M direct targets tnames values
                    = Except.ok v2 := by
                  unfold chainStep
                  simp only [hme, hconvb, hni]
                  simpa using hcs
                have hnic : nic = values.length + 1 :=
                  next_iteration_count M direct tnames values errors
                    corrections nic hni
                have hlen2 : v2.length = values.length :=
                  applyCorrections_length values corrections v2 hcs
                have hok2 : ∀ k, (iteration + 1) + k ≤ 101 →
                    exOk (chain M direct targets tnames v2 k) = true := by
                  intro k hk
                  have := hok (k + 1) (by omega)
                  rwa [chain_shift M direct targets tnames hcsfull k] at this
                have hrec := ih (iteration + 1) v2 (by omega) hok2
                cases hsl : solveLoop M direct targets tnames fuel
                    (iteration + 1) v2 with
                | mk r c2 =>
                  rw [hsl] at hrec
                  have hloop : solveLoop M direct targets tnames (fuel + 1)
                      iteration values = (r, 1 + nic + c2) := by
                    simp [solveLoop, hit, hme, hconvb, hni, hcs, hsl]
                  constructor
                  · intro hnc
                    have hnc2 : ∀ k, (iteration + 1) + k ≤ 100 →
                        convAt M direct targets tnames v2 k = false := by
                      intro k hk
                      have := hnc (k + 1) (by omega)
                      rwa [convAt_shift M direct targets tnames hcsfull k]
                        at this
                    have hres := hrec.1 hnc2
                    rw [hloop]
                    simpa using hres
                  · intro k hk hbefore hconvk
                    cases k with
                    | zero =>
                      rw [hconv0, hconvb] at hconvk
                      cases hconvk
                    | succ kk =>
                      have hbefore2 : ∀ j, j < kk →
                          convAt M direct targets tnames v2 j = false := by
                        intro j hj
                        have := hbefore (j + 1) (by omega)
                        rwa [convAt_shift M direct targets tnames hcsfull j]
                          at this
                      have hconvk2 : convAt M direct targets tnames v2 kk
                          = true := by
                        rwa [convAt_shift M direct targets tnames hcsfull kk]
                          at hconvk
                      obtain ⟨vk, hchaink, hslk⟩ :=
                        hrec.2 kk (by omega) hbefore2 hconvk2
                      refine ⟨vk, ?_, ?_⟩
                      · rw [chain_shift M direct targets tnames hcsfull kk]
                        exact hchaink
                      · rw [hloop]
                        have hr : r = Except.ok vk ∧
                            c2 = kk * (v2.length + 2) + 1 := by
                          constructor
                          · exact congrArg Prod.fst hslk
                          · exact congrArg Prod.snd hslk
                        rw [hr.1, hr.2, hlen2, hnic]
                        have harr : 1 + (values.length + 1)
                            + (kk * (values.length + 2) + 1)
                            = (kk + 1) * (values.length + 2) + 1 := by ring
                        rw [harr]

/-- First Newton step of the linear instance: from `x = 0` to `x = 10`. -/
theorem Mlin_step0 :
    chainStep Mlin [] Tlin ["z"] [("x", 0)] = Except.ok [("x", 10)] := by
  norm_num [chainStep, mkErrors, mapME, dget, isconverged, next_iteration,
    generate_jacobian, jacLoop, isetFind, gradientRow, rowFind,
    applyCorrections, Mlin, Tlin]

/-- The converged iterate of the linear instance is a fixed point. -/
theorem Mlin_step1 :
    chainStep Mlin [] Tlin ["z"] [("x", 10)] = Except.ok [("x", 10)] := by
  norm_num [chainStep, mkErrors, mapME, dget, isconverged, Mlin, Tlin]

/-- The start iterate of the linear instance is not converged. -/
theorem Mlin_conv0 :
    convAt Mlin [] Tlin ["z"] [("x", 0)] 0 = false := by
  norm_num [convAt, chain, mkErrors, mapME, dget, isconverged, Mlin, Tlin]

/-- The iterate after one chain step of the linear instance. -/
theorem Mlin_chain1 :
    chain Mlin [] Tlin ["z"] [("x", 0)] 1 = Except.ok [("x", 10)] := by
  simp [chain, Mlin_step0]

/-- The linear instance is converged at iterate index 1. -/
theorem Mlin_conv1 :
    convAt Mlin [] Tlin ["z"] [("x", 0)] 1 = true := by
  rw [convAt, Mlin_chain1]
  norm_num [mkErrors, mapME, dget, isconverged, Mlin, Tlin]

/-- Every iterate of the linear instance exists. -/
theorem Mlin_hok :
    ∀ k, exOk (chain Mlin [] Tlin ["z"] [("x", 0)] k) = true := by
  intro k
  cases k with
  | zero => rfl
  | succ k =>
    rw [chain_shift Mlin [] Tlin ["z"] Mlin_step0 k,
      chain_stable Mlin [] Tlin ["z"] Mlin_step1 k]
    rfl

/-- Full trace of the linear instance: the solver converges after one
Newton correction and returns `x = 10`, having evaluated the wrapped
function 4 times (error vector, Jacobian baseline, one perturbation, and
the final convergence check). -/
theorem Mlin_solve : solve Mlin Tlin = (Except.ok [("x", 10)], 4) := by
  have hspec := solveLoop_spec Mlin [] Tlin ["z"] 102 0 [("x", 0)] rfl
    (fun k _ => Mlin_hok k)
  have hbefore : ∀ j, j < 1 →
      convAt Mlin [] Tlin ["z"] [("x", 0)] j = false := by
    intro j hj
    have hj0 : j = 0 := by omega
    rw [hj0]
    exact Mlin_conv0
  obtain ⟨vk, hch, hsl⟩ := hspec.2 1 (by omega) hbefore Mlin_conv1
  rw [Mlin_chain1] at hch
  have hvk : vk = [("x", 10)] := (Except.ok.inj hch).symm
  rw [solve_eq_loop Mlin Tlin rfl]
  show solveLoop Mlin [] Tlin ["z"] 102 0 [("x", 0)] = _
  rw [hsl, hvk]
  norm_num

/-- C4.  Under the parity assert passing and every iterate through the cap
existing, `Solver.solve` raises the iteration-limit error exactly when no
iterate with index at most 100 satisfies the convergence test (every
error's absolute value below 1e-6); and when the first converged iterate
has index at most 100, `solve` returns exactly that iterate's input values
instead of raising. -/
theorem C4_solver_iteration_limit (M : SolverM) (targets : Dict)
    (hpar : (targets.filter
      (fun tv => !(M.inputAliases.contains tv.1))).length = M.isets.length)
    (hok : ∀ k, k ≤ 101 → exOk (chain M (solveDirect M targets) targets
      (solveTNames M targets) (startValues M) k) = true) :
    ((solve M targets).1 = Except.error SErr.iterLimit ↔
      ∀ k, k ≤ 100 → convAt M (solveDirect M targets) targets
        (solveTNames M targets) (startValues M) k = false) ∧
    (∀ k, k ≤ 100 →
      (∀ j, j < k → convAt M (solveDirect M targets) targets
        (solveTNames M targets) (startValues M) j = false) →
      convAt M (solveDirect M targets) targets
        (solveTNames M targets) (startValues M) k = true →
      ∃ vk, chain M (solveDirect M targets) targets
          (solveTNames M targets) (startValues M) k = Except.ok vk ∧
        (solve M targets).1 = Except.ok vk) := by
  have hspec := solveLoop_spec M (solveDirect M targets) targets
    (solveTNames M targets) 102 0 (startValues M) rfl
    (fun k hk => hok k (by omega))
  rw [solve_eq_loop M targets hpar]
  constructor
  · constructor
    · intro hlim
      by_contra hex
      push_neg at hex
      obtain ⟨k, hk, hkconv⟩ := hex
      have hkconv' : convAt M (solveDirect M targets) targets
          (solveTNames M targets) (startValues M) k = true := by
        cases hcv : convAt M (solveDirect M targets) targets
            (solveTNames M targets) (startValues M) k with
        | false => exact absurd hcv hkconv
        | true => rfl
      have hPex : ∃ j, convAt M (solveDirect M targets) targets
          (solveTNames M targets) (startValues M) j = true ∧ j ≤ 100 :=
        ⟨k, hkconv', hk⟩
      have hk0spec := Nat.find_spec hPex
      have hbefore : ∀ j, j < Nat.find hPex →
          convAt M (solveDirect M targets) targets
            (solveTNames M targets) (startValues M) j = false := by
        intro j hj
        have hmin := Nat.find_min hPex hj
        cases hcv : convAt M (solveDirect M targets) targets
            (solveTNames M targets) (startValues M) j with
        | false => rfl
        | true =>
          exact absurd (And.intro hcv (by
            have := Nat.find_min' hPex ⟨hkconv', hk⟩
            omega)) hmin
      obtain ⟨vk, _, hsl⟩ := hspec.2 (Nat.find hPex)
        (by have := hk0spec.2; omega) hbefore hk0spec.1
      rw [hsl] at hlim
      simp at hlim
    · intro hnc
      exact hspec.1 (fun k hk => hnc k (by omega))
  · intro k hk hbefore hconvk
    obtain ⟨vk, hch, hsl⟩ := hspec.2 k (by omega) hbefore hconvk
    exact ⟨vk, hch, by rw [hsl]⟩

/-- Witness for C4 on the linear instance: convergence is reached at
iterate index 1 within the cap, and `solve` returns that iterate. -/
theorem C4_solver_iteration_limit_witness :
    (solve Mlin Tlin).1 = Except.ok [("x", 10)] := by
  have h := C4_solver_iteration_limit Mlin Tlin rfl
    (fun k _ => Mlin_hok k)
  have hbefore : ∀ j, j < 1 →
      convAt Mlin (solveDirect Mlin Tlin) Tlin (solveTNames Mlin Tlin)
        (startValues Mlin) j = false := by
    intro j hj
    have hj0 : j = 0 := by omega
    rw [hj0]
    exact Mlin_conv0
  obtain ⟨vk, hch, hsol⟩ := h.2 1 (by omega) hbefore Mlin_conv1
  have hD : solveDirect Mlin Tlin = [] := rfl
  have hT : solveTNames Mlin Tlin = ["z"] := rfl
  have hV : startValues Mlin = [("x", 0)] := rfl
  rw [hD, hT, hV, Mlin_chain1] at hch
  rw [hsol, ← Except.ok.inj hch]

/-- C5, counterexample.  On the one-variable linear instance the solver
converges after exactly one non-converged iteration plus the final
convergence check.  The claim's count — one baseline plus one evaluation
per perturbed variable, i.e. `variables + 1 = 2` evaluations for the
non-converged iteration, plus the final check — predicts 3 evaluations in
total, but the code performs 4: the loop evaluates once for the error
vector and `generate_jacobian` then re-evaluates the same baseline again
before the perturbation. -/
theorem C5_evaluation_count_counterexample :
    solve Mlin Tlin = (Except.ok [("x", 10)], 4) ∧ 4 ≠ 1 * (1 + 1) + 1 :=
  ⟨Mlin_solve, by omega⟩

/-- C5, amended.  In each non-converged Newton iteration the solver
evaluates the wrapped calculate function exactly (number of free
variables) + 2 times: one evaluation for the error vector, one fresh
baseline evaluation inside the Jacobian build, and a single evaluation per
perturbed variable; the Jacobian is rebuilt from the current iteration's
evaluations with no reuse.  A solve that first converges at iterate index
`k ≤ 100` therefore performs `k·(variables+2) + 1` evaluations in total. -/
theorem C5_evaluation_count_amended (M : SolverM) (targets : Dict) (k : Nat)
    (hpar : (targets.filter
      (fun tv => !(M.inputAliases.contains tv.1))).length = M.isets.length)
    (hok : ∀ j, j ≤ 101 → exOk (chain M (solveDirect M targets) targets
      (solveTNames M targets) (startValues M) j) = true)
    (hk : k ≤ 100)
    (hbefore : ∀ j, j < k → convAt M (solveDirect M targets) targets
      (solveTNames M targets) (startValues M) j = false)
    (hconv : convAt M (solveDirect M targets) targets
      (solveTNames M targets) (startValues M) k = true) :
    (solve M targets).2 = k * (M.isets.length + 2) + 1 := by
  have hspec := solveLoop_spec M (solveDirect M targets) targets
    (solveTNames M targets) 102 0 (startValues M) rfl
    (fun j hj => hok j (by omega))
  obtain ⟨vk, _, hsl⟩ := hspec.2 k (by omega) hbefore hconv
  rw [solve_eq_loop M targets hpar, hsl]
  simp [startValues]

/-- Witness for the amended C5 on the linear instance: one non-converged
iteration with one variable costs 3 evaluations, plus the final check. -/
theorem C5_evaluation_count_amended_witness :
    (solve Mlin Tlin).2 = 1 * (Mlin.isets.length + 2) + 1 := by
  refine C5_evaluation_count_amended Mlin Tlin 1 rfl
    (fun j _ => Mlin_hok j) (by omega) ?_ Mlin_conv1
  intro j hj
  have hj0 : j = 0 := by omega
  rw [hj0]
  exact Mlin_conv0

/-- C6.  The partition itself is implemented (direct inputs are applied and
removed from the unknown set, and the parity assert compares the remaining
targets with the solver variables), but the error vector of source line 70
is built over ALL requested targets rather than only the remaining ones:
with `FLOW` a settable input alias and targets `{FLOW: 500, THRUST: 1000}`,
the very first iteration looks the direct target `FLOW` up among the engine
outputs (which expose only `THRUST`) and raises a `KeyError` after a single
engine evaluation, where the claim and the spec require the error vector
and convergence check to range only over the remaining solver targets. -/
theorem C6_error_vector_over_all_targets :
    (solve Mdir Tdir).1 = Except.error SErr.keyError ∧
    (solve Mdir Tdir).2 = 1 :=
  ⟨rfl, rfl⟩

/-- Folding `update` over a dependent list, described by an appended
computation order: the values are the order replayed, the dirty flags lose
exactly the order's members, and every member is reachable from some list
element.  Takes the description of a single `update` call as `ih`. -/
theorem update_ext_foldl (g : Graph) (cf : Nat → (Nat → V) → (Nat → V))
    (fuel : Nat)
    (ih : ∀ (n : Nat) (s : St V), ∃ δ : List Nat,
      (update g (totalCalc cf) fuel n s).order = s.order ++ δ ∧
      (update g (totalCalc cf) fuel n s).vals = applyOrder cf δ s.vals ∧
      (update g (totalCalc cf) fuel n s).dirty
        = (fun m => s.dirty m && !(decide (m ∈ δ))) ∧
      (∀ m ∈ δ, Reaches g n m)) :
    ∀ (l : List Nat) (s : St V), ∃ δ : List Nat,
      (l.foldl (fun t d => update g (totalCalc cf) fuel d t) s).order
        = s.order ++ δ ∧
      (l.foldl (fun t d => update g (totalCalc cf) fuel d t) s).vals
        = applyOrder cf δ s.vals ∧
      (l.foldl (fun t d => update g (totalCalc cf) fuel d t) s).dirty
        = (fun m => s.dirty m && !(decide (m ∈ δ))) ∧
      (∀ m ∈ δ, ∃ d ∈ l, Reaches g d m) := by
  intro l
  induction l with
  | nil =>
    intro s
    refine ⟨[], by simp, rfl, ?_, by intro m hm; cases hm⟩
    funext m
    simp
  | cons d rest ihl =>
    intro s
    obtain ⟨δ1, h1o, h1v, h1d, h1r⟩ := ih d s
    obtain ⟨δ2, h2o, h2v, h2d, h2r⟩ := ihl (update g (totalCalc cf) fuel d s)
    refine ⟨δ1 ++ δ2, ?_, ?_, ?_, ?_⟩
    · show (rest.foldl _ (update g (totalCalc cf) fuel d s)).order = _
      rw [h2o, h1o, List.append_assoc]
    · show (rest.foldl _ (update g (totalCalc cf) fuel d s)).vals = _
      rw [h2v, h1v]
      unfold applyOrder
      rw [List.foldl_append]
    · show (rest.foldl _ (update g (totalCalc cf) fuel d s)).dirty = _
      rw [h2d, h1d]
      funext m
      by_cases hm1 : m ∈ δ1 <;> by_cases hm2 : m ∈ δ2 <;>
        simp [hm1, hm2, List.mem_append]
    · intro m hm
      rcases List.mem_append.mp hm with hm1 | hm2
      · exact ⟨d, List.mem_cons_self d rest, h1r m hm1⟩
      · obtain ⟨d2, hd2, hr⟩ := h2r m hm2
        exact ⟨d2, List.mem_cons_of_mem d hd2, hr⟩

/-- Description of a single `update` run with never-raising `calculate`
bodies: it appends a computation order `δ` to the trace, its value store is
`δ` replayed over the incoming store, its dirty set loses exactly the
members of `δ`, and every member of `δ` is a transitive dependent of the
updated node. -/
theorem update_ext (g : Graph) (cf : Nat → (Nat → V) → (Nat → V)) :
    ∀ (fuel n : Nat) (s : St V), ∃ δ : List Nat,
      (update g (totalCalc cf) fuel n s).order = s.order ++ δ ∧
      (update g (totalCalc cf) fuel n s).vals = applyOrder cf δ s.vals ∧
      (update g (totalCalc cf) fuel n s).dirty
        = (fun m => s.dirty m && !(decide (m ∈ δ))) ∧
      (∀ m ∈ δ, Reaches g n m) := by
  intro fuel
  induction fuel with
  | zero =>
    intro n s
    have hupd : update g (totalCalc cf) 0 n s = s := rfl
    refine ⟨[], ?_, ?_, ?_, by intro m hm; cases hm⟩
    · rw [hupd]; simp
    · rw [hupd]; rfl
    · rw [hupd]; funext m; simp
  | succ fuel ih =>
    intro n s
    by_cases hab : s.ab
    · have hupd : update g (totalCalc cf) (fuel + 1) n s = s := by
        simp [update, hab]
      refine ⟨[], ?_, ?_, ?_, by intro m hm; cases hm⟩
      · rw [hupd]; simp
      · rw [hupd]; rfl
      · rw [hupd]; funext m; simp
    · by_cases hdn : s.dirty n = false
      · have hupd : update g (totalCalc cf) (fuel + 1) n s
            = { s with ab := true } := by
          simp [update, hab, hdn]
        refine ⟨[], ?_, ?_, ?_, by intro m hm; cases hm⟩
        · rw [hupd]; simp
        · rw [hupd]; rfl
        · rw [hupd]; funext m; simp
      · by_cases hblk : (g.precs n).any s.dirty
        · have hupd : update g (totalCalc cf) (fuel + 1) n s = s := by
            simp [update, hab, hdn, hblk]
          refine ⟨[], ?_, ?_, ?_, by intro m hm; cases hm⟩
          · rw [hupd]; simp
          · rw [hupd]; rfl
          · rw [hupd]; funext m; simp
        · have hstep : update g (totalCalc cf) (fuel + 1) n s =
              (g.deps n).foldl (fun t d => update g (totalCalc cf) fuel d t)
                { vals := cf n s.vals,
                  dirty := fun m => if m = n then false else s.dirty m,
                  ab := s.ab, order := s.order ++ [n] } := by
            simp [update, hab, hdn, hblk, totalCalc]
          obtain ⟨δf, hfo, hfv, hfd, hfr⟩ := update_ext_foldl g cf fuel ih
            (g.deps n)
            { vals := cf n s.vals,
              dirty := fun m => if m = n then false else s.dirty m,
              ab := s.ab, order := s.order ++ [n] }
          refine ⟨n :: δf, ?_, ?_, ?_, ?_⟩
          · rw [hstep, hfo]
            simp
          · rw [hstep, hfv]
            rfl
          · rw [hstep, hfd]
            funext m
            by_cases hmn : m = n
            · subst hmn
              simp
            · by_cases hmf : m ∈ δf <;> simp [hmn, hmf]
          · intro m hm
            rcases List.mem_cons.mp hm with rfl | hmf
            · exact Reaches.refl m
            · obtain ⟨d, hd, hr⟩ := hfr m hmf
              exact Reaches.step hd hr

/-- Lockstep foldl of `update` over two states that agree on dirty flags
and exception status: both runs compute the same order extension and end
with equal dirty flags and exception status. -/
theorem update_ctl_foldl (g : Graph) (cf : Nat → (Nat → V) → (Nat → V))
    (fuel : Nat)
    (ih : ∀ (n : Nat) (s t : St V), s.dirty = t.dirty → s.ab = t.ab →
      ∃ δ : List Nat,
        (update g (totalCalc cf) fuel n s).order = s.order ++ δ ∧
        (update g (totalCalc cf) fuel n t).order = t.order ++ δ ∧
        (update g (totalCalc cf) fuel n s).dirty
          = (update g (totalCalc cf) fuel n t).dirty ∧
        (update g (totalCalc cf) fuel n s).ab
          = (update g (totalCalc cf) fuel n t).ab) :
    ∀ (l : List Nat) (s t : St V), s.dirty = t.dirty → s.ab = t.ab →
      ∃ δ : List Nat,
        (l.foldl (fun a d => update g (totalCalc cf) fuel d a) s).order
          = s.order ++ δ ∧
        (l.foldl (fun a d => update g (totalCalc cf) fuel d a) t).order
          = t.order ++ δ ∧
        (l.foldl (fun a d => update g (totalCalc cf) fuel d a) s).dirty
          = (l.foldl (fun a d => update g (totalCalc cf) fuel d a) t).dirty ∧
        (l.foldl (fun a d => update g (totalCalc cf) fuel d a) s).ab
          = (l.foldl (fun a d => update g (totalCalc cf) fuel d a) t).ab := by
  intro l
  induction l with
  | nil =>
    intro s t hd hab
    exact ⟨[], by simp, by simp, hd, hab⟩
  | cons d rest ihl =>
    intro s t hd hab
    obtain ⟨δ1, h1so, h1to, h1d, h1ab⟩ := ih d s t hd hab
    obtain ⟨δ2, h2so, h2to, h2d, h2ab⟩ :=
      ihl (update g (totalCalc cf) fuel d s)
        (update g (totalCalc cf) fuel d t) h1d h1ab
    refine ⟨δ1 ++ δ2, ?_, ?_, h2d, h2ab⟩
    · show (rest.foldl _ (update g (totalCalc cf) fuel d s)).order = _
      rw [h2so, h1so, List.append_assoc]
    · show (rest.foldl _ (update g (totalCalc cf) fuel d t)).order = _
      rw [h2to, h1to, List.append_assoc]

/-- Control determinism of `update` with never-raising bodies: the
computation order, the resulting dirty flags and the exception status are
functions of the incoming dirty flags and exception status only — the
value store never influences them. -/
theorem update_ctl (g : Graph) (cf : Nat → (Nat → V) → (Nat → V)) :
    ∀ (fuel n : Nat) (s t : St V), s.dirty = t.dirty → s.ab = t.ab →
      ∃ δ : List Nat,
        (update g (totalCalc cf) fuel n s).order = s.order ++ δ ∧
        (update g (totalCalc cf) fuel n t).order = t.order ++ δ ∧
        (update g (totalCalc cf) fuel n s).dirty
          = (update g (totalCalc cf) fuel n t).dirty ∧
        (update g (totalCalc cf) fuel n s).ab
          = (update g (totalCalc cf) fuel n t).ab := by
  intro fuel
  induction fuel with
  | zero =>
    intro n s t hd hab
    exact ⟨[], by simp [update], by simp [update], hd, hab⟩
  | succ fuel ih =>
    intro n s t hd hab
    by_cases habs : s.ab
    · have habt : t.ab := by rw [← hab]; exact habs
      have hs : update g (totalCalc cf) (fuel + 1) n s = s := by
        simp [update, habs]
      have ht : update g (totalCalc cf) (fuel + 1) n t = t := by
        simp [update, habt]
      exact ⟨[], by rw [hs]; simp, by rw [ht]; simp, by rw [hs, ht]; exact hd,
        by rw [hs, ht]; exact hab⟩
    · have habt : ¬t.ab := by rw [← hab]; exact habs
      by_cases hdn : s.dirty n = false
      · have hdnt : t.dirty n = false := by rw [← hd]; exact hdn
        have hs : update g (totalCalc cf) (fuel + 1) n s
            = { s with ab := true } := by simp [update, habs, hdn]
        have ht : update g (totalCalc cf) (fuel + 1) n t
            = { t with ab := true } := by simp [update, habt, hdnt]
        exact ⟨[], by rw [hs]; simp, by rw [ht]; simp,
          by rw [hs, ht]; exact hd, by rw [hs, ht]⟩
      · have hdnt : ¬t.dirty n = false := by rw [← hd]; exact hdn
        by_cases hblk : (g.precs n).any s.dirty
        · have hblkt : (g.precs n).any t.dirty := by rw [← hd]; exact hblk
          have hs : update g (totalCalc cf) (fuel + 1) n s = s := by
            simp [update, habs, hdn, hblk]
          have ht : update g (totalCalc cf) (fuel + 1) n t = t := by
            simp [update, habt, hdnt, hblkt]
          exact ⟨[], by rw [hs]; simp, by rw [ht]; simp,
            by rw [hs, ht]; exact hd, by rw [hs, ht]; exact hab⟩
        · have hblkt : ¬(g.precs n).any t.dirty := by rw [← hd]; exact hblk
          have hs : update g (totalCalc cf) (fuel + 1) n s =
              (g.deps n).foldl (fun a d => update g (totalCalc cf) fuel d a)
                { vals := cf n s.vals,
                  dirty := fun m => if m = n then false else s.dirty m,
                  ab := s.ab, order := s.order ++ [n] } := by
            simp [update, habs, hdn, hblk, totalCalc]
          have ht : update g (totalCalc cf) (fuel + 1) n t =
              (g.deps n).foldl (fun a d => update g (totalCalc cf) fuel d a)
                { vals := cf n t.vals,
                  dirty := fun m => if m = n then false else t.dirty m,
                  ab := t.ab, order := t.order ++ [n] } := by
            simp [update, habt, hdnt, hblkt, totalCalc]
          obtain ⟨δf, hfso, hfto, hfd, hfab⟩ := update_ctl_foldl g cf fuel ih
            (g.deps n)
            { vals := cf n s.vals,
              dirty := fun m => if m = n then false else s.dirty m,
              ab := s.ab, order := s.order ++ [n] }
            { vals := cf n t.vals,
              dirty := fun m => if m = n then false else t.dirty m,
              ab := t.ab, order := t.order ++ [n] }
            (by funext m; rw [hd]) (by rw [hab])
          refine ⟨n :: δf, ?_, ?_, ?_, ?_⟩
          · rw [hs, hfso]
            simp
          · rw [ht, hfto]
            simp
          · rw [hs, ht]
            exact hfd
          · rw [hs, ht]
            exact hfab

/-- Marking distributes over a union of flag sets: the recursion never
consults the incoming flags, so they ride along untouched. -/
theorem make_dirty_union (g : Graph) :
    ∀ (fuel n : Nat) (d1 d2 : Nat → Bool),
      make_dirty g fuel n (fun m => d1 m || d2 m)
        = fun m => make_dirty g fuel n d1 m || d2 m := by
  intro fuel
  induction fuel with
  | zero => intro n d1 d2; rfl
  | succ fuel ih =>
    intro n d1 d2
    have hfold : ∀ (l : List Nat) (b1 b2 : Nat → Bool),
        l.foldl (fun dd m => make_dirty g fuel m dd) (fun m => b1 m || b2 m)
          = fun m =>
            l.foldl (fun dd m => make_dirty g fuel m dd) b1 m || b2 m := by
      intro l
      induction l with
      | nil => intro b1 b2; rfl
      | cons x xs ihl =>
        intro b1 b2
        simp only [List.foldl_cons]
        rw [ih x b1 b2]
        exact ihl (make_dirty g fuel x b1) b2
    have hbase : (fun m => if m = n then true else d1 m || d2 m)
        = fun m => (if m = n then true else d1 m) || d2 m := by
      funext m
      by_cases hm : m = n <;> simp [hm]
    show (g.deps n).foldl (fun dd m => make_dirty g fuel m dd)
        (fun m => if m = n then true else d1 m || d2 m) = _
    rw [hbase, hfold]
    rfl

/-- Marking adds a fixed mask — the flags set from scratch — to whatever
flags were already set. -/
theorem make_dirty_mask (g : Graph) (fuel n : Nat) (d : Nat → Bool) :
    make_dirty g fuel n d
      = fun m => make_dirty g fuel n (fun _ => false) m || d m := by
  have h := make_dirty_union g fuel n (fun _ => false) d
  have hd : (fun m => (fun _ => false) m || d m) = d := by
    funext m
    simp
  rw [hd] at h
  exact h

/-- A location no step of the order writes keeps its value. -/
theorem applyOrder_frame (cf : Nat → (Nat → V) → (Nat → V))
    (writeS : Nat → List Nat)
    (hW : ∀ n v l, l ∉ writeS n → cf n v l = v l) :
    ∀ (L : List Nat) (v : Nat → V) (x : Nat),
      (∀ m ∈ L, x ∉ writeS m) → applyOrder cf L v x = v x := by
  intro L
  induction L with
  | nil => intro v x _; rfl
  | cons m L2 ih =>
    intro v x hx
    show applyOrder cf L2 (cf m v) x = v x
    rw [ih (cf m v) x (fun m2 hm2 => hx m2 (List.mem_cons_of_mem m hm2)),
      hW m v x (hx m (List.mem_cons_self m L2))]

/-- Replaying a dataflow-respecting order over a store that already holds
the order's results is a no-op.  `L` must read nothing that a same-or-later
step writes, write each location at most once across steps, and `w` must
agree with the replay of `L` over `v` on every location `L` touches. -/
theorem applyOrder_noop (cf : Nat → (Nat → V) → (Nat → V))
    (readS writeS : Nat → List Nat)
    (hW : ∀ n v l, l ∉ writeS n → cf n v l = v l)
    (hR : ∀ n v w, (∀ l ∈ readS n, v l = w l) →
      ∀ l ∈ writeS n, cf n v l = cf n w l) :
    ∀ (L : List Nat) (v w : Nat → V),
      L.Pairwise (fun a b => ∀ x ∈ readS a, x ∉ writeS b) →
      (∀ m ∈ L, ∀ x ∈ readS m, x ∉ writeS m) →
      L.Pairwise (fun a b => ∀ x ∈ writeS a, x ∉ writeS b) →
      (∀ x, (∃ m ∈ L, x ∈ readS m ∨ x ∈ writeS m) →
        w x = applyOrder cf L v x) →
      applyOrder cf L w = w := by
  intro L
  induction L with
  | nil => intro v w _ _ _ _; rfl
  | cons m L2 ih =>
    intro v w hP1 hOs hP2 hagree
    have hP1head : ∀ b ∈ L2, ∀ x ∈ readS m, x ∉ writeS b :=
      fun b hb x hx => (List.pairwise_cons.mp hP1).1 b hb x hx
    have hP2head : ∀ b ∈ L2, ∀ x ∈ writeS m, x ∉ writeS b :=
      fun b hb x hx => (List.pairwise_cons.mp hP2).1 b hb x hx
    have hself : ∀ x ∈ readS m, x ∉ writeS m :=
      hOs m (List.mem_cons_self m L2)
    have hA : ∀ x ∈ readS m, w x = v x := by
      intro x hx
      have h1 : w x = applyOrder cf (m :: L2) v x :=
        hagree x ⟨m, List.mem_cons_self m L2, Or.inl hx⟩
      have h2 : applyOrder cf (m :: L2) v x = applyOrder cf L2 (cf m v) x :=
        rfl
      have h3 : applyOrder cf L2 (cf m v) x = (cf m v) x :=
        applyOrder_frame cf writeS hW L2 (cf m v) x
          (fun b hb => hP1head b hb x hx)
      have h4 : cf m v x = v x := hW m v x (hself x hx)
      rw [h1, h2, h3, h4]
    have hB : ∀ x ∈ writeS m, w x = cf m v x := by
      intro x hx
      have h1 : w x = applyOrder cf (m :: L2) v x :=
        hagree x ⟨m, List.mem_cons_self m L2, Or.inr hx⟩
      have h3 : applyOrder cf L2 (cf m v) x = (cf m v) x :=
        applyOrder_frame cf writeS hW L2 (cf m v) x
          (fun b hb => hP2head b hb x hx)
      rw [h1]
      exact h3
    have hcm : cf m w = w := by
      funext x
      by_cases hx : x ∈ writeS m
      · have := hR m w v (fun l hl => hA l hl) x hx
        rw [this, ← hB x hx]
      · exact hW m w x hx
    show applyOrder cf L2 (cf m w) = w
    rw [hcm]
    exact ih (cf m v) w (List.pairwise_cons.mp hP1).2
      (fun m2 hm2 => hOs m2 (List.mem_cons_of_mem m hm2))
      (List.pairwise_cons.mp hP2).2
      (fun x hx => by
        obtain ⟨m2, hm2, hx2⟩ := hx
        exact hagree x ⟨m2, List.mem_cons_of_mem m hm2, hx2⟩)

/-- Decomposition of a fold of input writes: exception status and trace are
untouched, values receive the writes, and the dirty flags gain the union of
the per-component marking masks. -/
theorem setInputs_go (M : EngModel V) :
    ∀ (l : List (Nat × Nat × V)) (s : St V),
      (l.foldl (setOneInput M) s).ab = s.ab ∧
      (l.foldl (setOneInput M) s).order = s.order ∧
      (l.foldl (setOneInput M) s).vals = applyWrites l s.vals ∧
      (l.foldl (setOneInput M) s).dirty
        = fun m => s.dirty m ||
            l.any (fun t => make_dirty M.g M.fmd t.1 (fun _ => false) m) := by
  intro l
  induction l with
  | nil =>
    intro s
    refine ⟨rfl, rfl, rfl, ?_⟩
    funext m
    simp
  | cons t rest ih =>
    intro s
    obtain ⟨hab, hord, hvals, hdirty⟩ := ih (setOneInput M s t)
    simp only [List.foldl_cons]
    refine ⟨hab, hord, ?_, ?_⟩
    · rw [hvals]
      rfl
    · rw [hdirty]
      funext m
      show (make_dirty M.g M.fmd t.1 s.dirty m ||
          (rest.any fun t2 => make_dirty M.g M.fmd t2.1 (fun _ => false) m))
        = (s.dirty m ||
          ((t :: rest).any fun t2 =>
            make_dirty M.g M.fmd t2.1 (fun _ => false) m))
      rw [congrFun (make_dirty_mask M.g M.fmd t.1 s.dirty) m]
      simp only [List.any_cons]
      cases s.dirty m <;>
        cases make_dirty M.g M.fmd t.1 (fun _ => false) m <;>
        cases rest.any
          (fun t2 => make_dirty M.g M.fmd t2.1 (fun _ => false) m) <;>
        rfl

/-- Decomposition of `set_inputs` itself. -/
theorem set_inputs_parts (M : EngModel V) (s : St V) :
    (set_inputs M s).ab = s.ab ∧
    (set_inputs M s).order = s.order ∧
    (set_inputs M s).vals = applyWrites M.inputs s.vals ∧
    (set_inputs M s).dirty
      = fun m => s.dirty m ||
          M.inputs.any
            (fun t => make_dirty M.g M.fmd t.1 (fun _ => false) m) :=
  setInputs_go M M.inputs s

/-- A location no input write targets keeps its value. -/
theorem applyWrites_frame :
    ∀ (l : List (Nat × Nat × V)) (v : Nat → V) (x : Nat),
      (∀ t ∈ l, x ≠ t.2.1) → applyWrites l v x = v x := by
  intro l
  induction l with
  | nil => intro v x _; rfl
  | cons t rest ih =>
    intro v x hx
    show applyWrites rest _ x = v x
    rw [ih _ x (fun t2 ht2 => hx t2 (List.mem_cons_of_mem t ht2))]
    simp [hx t (List.mem_cons_self t rest)]

/-- Rewriting values that are already present changes nothing. -/
theorem applyWrites_noop :
    ∀ (l : List (Nat × Nat × V)) (v : Nat → V),
      (∀ t ∈ l, v t.2.1 = t.2.2) → applyWrites l v = v := by
  intro l
  induction l with
  | nil => intro v _; rfl
  | cons t rest ih =>
    intro v hv
    show applyWrites rest (fun l2 => if l2 = t.2.1 then t.2.2 else v l2) = v
    have hone : (fun l2 => if l2 = t.2.1 then t.2.2 else v l2) = v := by
      funext l2
      by_cases hl : l2 = t.2.1
      · rw [hl, if_pos rfl, hv t (List.mem_cons_self t rest)]
      · rw [if_neg hl]
    rw [hone]
    exact ih v (fun t2 ht2 => hv t2 (List.mem_cons_of_mem t ht2))

/-- With pairwise-distinct target locations, each input write is readable
back from the written store. -/
theorem applyWrites_value :
    ∀ (l : List (Nat × Nat × V)) (v : Nat → V),
      (l.map (fun t => t.2.1)).Nodup →
      ∀ t ∈ l, applyWrites l v t.2.1 = t.2.2 := by
  intro l
  induction l with
  | nil => intro v _ t ht; cases ht
  | cons t0 rest ih =>
    intro v hnd t ht
    have hnd' := List.nodup_cons.mp hnd
    rcases List.mem_cons.mp ht with rfl | ht2
    · show applyWrites rest _ t.2.1 = t.2.2
      rw [applyWrites_frame rest _ t.2.1 (fun t2 ht2 => by
        intro heq
        refine hnd'.1 ?_
        show t.2.1 ∈ List.map (fun t3 => t3.2.1) rest
        rw [heq]
        exact List.mem_map_of_mem (fun t3 => t3.2.1) ht2)]
      simp
    · exact ih _ hnd'.2 t ht2

/-- Decomposition of `Engine.update` when no exception escapes: there is a
computation order `δ` of transitive dependents of the environment; the
trace grows by `δ`, the values are `δ` replayed and then aggregated, the
dirty flags are the marked flags minus `δ`, and the inner propagation ends
exception-free. -/
theorem engineUpdate_parts (M : EngModel V) (s : St V)
    (hab : (engineUpdate M s).ab = false) :
    ∃ δ : List Nat,
      (engineUpdate M s).order = s.order ++ δ ∧
      (engineUpdate M s).vals
        = M.aggregate (applyOrder M.cf δ s.vals) ∧
      (engineUpdate M s).dirty
        = (fun m =>
            make_dirty M.g M.fmd M.env s.dirty m && !(decide (m ∈ δ))) ∧
      (∀ m ∈ δ, Reaches M.g M.env m) ∧
      (update M.g (totalCalc M.cf) M.fup M.env
        { s with dirty := make_dirty M.g M.fmd M.env s.dirty }).ab
          = false ∧
      (update M.g (totalCalc M.cf) M.fup M.env
        { s with dirty := make_dirty M.g M.fmd M.env s.dirty }).order
          = s.order ++ δ := by
  obtain ⟨δ, hδo, hδv, hδd, hδr⟩ := update_ext M.g M.cf M.fup M.env
    { s with dirty := make_dirty M.g M.fmd M.env s.dirty }
  have hdef : engineUpdate M s =
      (if (update M.g (totalCalc M.cf) M.fup M.env
          { s with dirty := make_dirty M.g M.fmd M.env s.dirty }).ab then
        update M.g (totalCalc M.cf) M.fup M.env
          { s with dirty := make_dirty M.g M.fmd M.env s.dirty }
      else
        { update M.g (totalCalc M.cf) M.fup M.env
            { s with dirty := make_dirty M.g M.fmd M.env s.dirty } with
          vals := M.aggregate (update M.g (totalCalc M.cf) M.fup M.env
            { s with dirty := make_dirty M.g M.fmd M.env s.dirty }).vals }) :=
    rfl
  cases hcab : (update M.g (totalCalc M.cf) M.fup M.env
      { s with dirty := make_dirty M.g M.fmd M.env s.dirty }).ab with
  | true =>
    exfalso
    rw [hdef, hcab] at hab
    simp at hab
    rw [hcab] at hab
    exact Bool.noConfusion hab
  | false =>
    have heu : engineUpdate M s =
        { update M.g (totalCalc M.cf) M.fup M.env
            { s with dirty := make_dirty M.g M.fmd M.env s.dirty } with
          vals := M.aggregate (update M.g (totalCalc M.cf) M.fup M.env
            { s with dirty := make_dirty M.g M.fmd M.env s.dirty }).vals } := by
      rw [hdef, hcab]
      simp
    refine ⟨δ, ?_, ?_, ?_, hδr, ?_, hδo⟩
    · rw [heu]
      show (update M.g (totalCalc M.cf) M.fup M.env _).order = _
      rw [hδo]
    · rw [heu]
      show M.aggregate (update M.g (totalCalc M.cf) M.fup M.env _).vals = _
      rw [hδv]
    · rw [heu]
      show (update M.g (totalCalc M.cf) M.fup M.env _).dirty = _
      rw [hδd]
    · rfl

/-- The mask form of marking, phrased through `mdMask` so it can be used
as a terminating rewrite rule. -/
theorem make_dirty_mask2 (g : Graph) (fuel n : Nat) (d : Nat → Bool) :
    make_dirty g fuel n d = fun m => mdMask g fuel n m || d m :=
  make_dirty_mask g fuel n d

/-- C3.  For every engine graph — an `EngModel` whose per-node `calculate`
bodies and aggregate step respect their declared read and write sets, whose
dependent graph is acyclic, whose marking fuel covers the environment's
reach, whose input-alias locations are distinct and written by no component
or aggregate, and whose recomputation order `L` respects dataflow (no step
reads a location a same-or-later step writes; no location is written twice)
— and every fixed input mapping, `calculate` is idempotent: when the first
call completes without an exception, calling it again returns exactly the
first call's output mapping, and even the full value store is unchanged. -/
theorem C3_calculate_idempotent (M : EngModel V) (s0 : St V)
    (hWf : ∀ n v l, l ∉ M.writeS n → M.cf n v l = v l)
    (hRd : ∀ n v w, (∀ l ∈ M.readS n, v l = w l) →
      ∀ l ∈ M.writeS n, M.cf n v l = M.cf n w l)
    (hAWf : ∀ v l, l ∉ M.writeA → M.aggregate v l = v l)
    (hARd : ∀ v w, (∀ l ∈ M.readA, v l = w l) →
      ∀ l ∈ M.writeA, M.aggregate v l = M.aggregate w l)
    (rank : Nat → Nat)
    (hrank : ∀ u v2, v2 ∈ M.g.deps u → rank v2 < rank u)
    (hfmd : rank M.env < M.fmd)
    (hinj : (M.inputs.map (fun t => t.2.1)).Nodup)
    (hab0 : s0.ab = false) (hord0 : s0.order = [])
    (L : List Nat) (hL : L = ((M.calculate s0).1).order)
    (hO1 : L.Pairwise (fun a b => ∀ x ∈ M.readS a, x ∉ M.writeS b))
    (hOs : ∀ m ∈ L, ∀ x ∈ M.readS m, x ∉ M.writeS m)
    (hO2 : L.Pairwise (fun a b => ∀ x ∈ M.writeS a, x ∉ M.writeS b))
    (hLA : ∀ m ∈ L, ∀ x, (x ∈ M.readS m ∨ x ∈ M.writeS m) → x ∉ M.writeA)
    (hRA : ∀ x ∈ M.readA, x ∉ M.writeA)
    (hIn : ∀ t ∈ M.inputs,
      (∀ m ∈ L, t.2.1 ∉ M.writeS m) ∧ t.2.1 ∉ M.writeA)
    (hab1 : ((M.calculate s0).1).ab = false) :
    ((M.calculate ((M.calculate s0).1)).1).vals = ((M.calculate s0).1).vals
    ∧ (M.calculate ((M.calculate s0).1)).2 = (M.calculate s0).2 := by
  obtain ⟨habs1, hords1, hvalss1, hdirtys1⟩ := set_inputs_parts M s0
  have hr1def : (M.calculate s0).1 = engineUpdate M (set_inputs M s0) := rfl
  have hab1' : (engineUpdate M (set_inputs M s0)).ab = false := by
    rw [← hr1def]
    exact hab1
  obtain ⟨δ, hδo, hδv, hδd, hδr, hUab, hUord⟩ :=
    engineUpdate_parts M (set_inputs M s0) hab1'
  have hr1ord : ((M.calculate s0).1).order = δ := by
    rw [hr1def, hδo, hords1, hord0]
    simp
  have hLδ : L = δ := by rw [hL, hr1ord]
  rw [hLδ] at hO1 hOs hO2 hLA hIn
  have hr1vals : ((M.calculate s0).1).vals
      = M.aggregate (applyOrder M.cf δ (applyWrites M.inputs s0.vals)) := by
    rw [hr1def, hδv, hvalss1]
  have hr1dirty : ((M.calculate s0).1).dirty
      = (fun m => make_dirty M.g M.fmd M.env (set_inputs M s0).dirty m &&
          !(decide (m ∈ δ))) := by
    rw [hr1def]
    exact hδd
  have hlocs : ∀ t ∈ M.inputs, ((M.calculate s0).1).vals t.2.1 = t.2.2 := by
    intro t ht
    rw [hr1vals, hAWf _ _ (hIn t ht).2,
      applyOrder_frame M.cf M.writeS hWf δ _ t.2.1 (hIn t ht).1]
    exact applyWrites_value M.inputs s0.vals hinj t ht
  obtain ⟨habs2, hords2, hvalss2, hdirtys2⟩ :=
    set_inputs_parts M ((M.calculate s0).1)
  have hvals2 : (set_inputs M ((M.calculate s0).1)).vals
      = ((M.calculate s0).1).vals := by
    rw [hvalss2]
    exact applyWrites_noop M.inputs _ hlocs
  have hdd : make_dirty M.g M.fmd M.env
        (set_inputs M ((M.calculate s0).1)).dirty
      = make_dirty M.g M.fmd M.env (set_inputs M s0).dirty := by
    rw [hdirtys2, hdirtys1, hr1dirty, hdirtys1]
    funext m
    simp only [make_dirty_mask2, Bool.or_false]
    by_cases hm : m ∈ δ
    · have henv : mdMask M.g M.fmd M.env m = true :=
        (make_dirty_spec M.g rank hrank M.fmd M.env hfmd
          (fun _ => false) m).mpr (Or.inr (hδr m hm))
      rw [henv]
      rfl
    · have hdec : decide (m ∈ δ) = false := by simp [hm]
      rw [hdec]
      cases mdMask M.g M.fmd M.env m <;>
        cases s0.dirty m <;>
        cases M.inputs.any (fun t => mdMask M.g M.fmd t.1 m) <;>
        rfl
  have heab : (set_inputs M ((M.calculate s0).1)).ab
      = (set_inputs M s0).ab := by
    rw [habs2, habs1, hab1, hab0]
  obtain ⟨δc, hc2o, hc1o, hcd, hcabeq⟩ := update_ctl M.g M.cf M.fup M.env
    { set_inputs M ((M.calculate s0).1) with
      dirty := make_dirty M.g M.fmd M.env
        (set_inputs M ((M.calculate s0).1)).dirty }
    { set_inputs M s0 with
      dirty := make_dirty M.g M.fmd M.env (set_inputs M s0).dirty }
    hdd heab
  have hU1ord : (update M.g (totalCalc M.cf) M.fup M.env
      { set_inputs M s0 with
        dirty := make_dirty M.g M.fmd M.env
          (set_inputs M s0).dirty }).order = δ := by
    rw [hUord, hords1, hord0]
    simp
  have hδc : δc = δ := by
    have h1 := hc1o
    rw [hU1ord] at h1
    have hE1ord : ({ set_inputs M s0 with
        dirty := make_dirty M.g M.fmd M.env
          (set_inputs M s0).dirty } : St V).order = [] := by
      show (set_inputs M s0).order = []
      rw [hords1, hord0]
    rw [hE1ord] at h1
    simpa using h1.symm
  obtain ⟨δ2, h2o, h2v, h2d, h2r⟩ := update_ext M.g M.cf M.fup M.env
    { set_inputs M ((M.calculate s0).1) with
      dirty := make_dirty M.g M.fmd M.env
        (set_inputs M ((M.calculate s0).1)).dirty }
  have hE2ord : ({ set_inputs M ((M.calculate s0).1) with
      dirty := make_dirty M.g M.fmd M.env
        (set_inputs M ((M.calculate s0).1)).dirty } : St V).order = δ := by
    show (set_inputs M ((M.calculate s0).1)).order = δ
    rw [hords2, hr1ord]
  have hδ2 : δ2 = δ := by
    have hcomb : ({ set_inputs M ((M.calculate s0).1) with
        dirty := make_dirty M.g M.fmd M.env
          (set_inputs M ((M.calculate s0).1)).dirty } : St V).order ++ δ2
        = ({ set_inputs M ((M.calculate s0).1) with
        dirty := make_dirty M.g M.fmd M.env
          (set_inputs M ((M.calculate s0).1)).dirty } : St V).order ++ δc :=
      h2o.symm.trans hc2o
    have := List.append_cancel_left hcomb
    rw [this, hδc]
  have hU2ab : (update M.g (totalCalc M.cf) M.fup M.env
      { set_inputs M ((M.calculate s0).1) with
        dirty := make_dirty M.g M.fmd M.env
          (set_inputs M ((M.calculate s0).1)).dirty }).ab = false := by
    rw [hcabeq]
    exact hUab
  have hr2def : (M.calculate ((M.calculate s0).1)).1
      = engineUpdate M (set_inputs M ((M.calculate s0).1)) := rfl
  have hr2eq : (M.calculate ((M.calculate s0).1)).1
      = { update M.g (totalCalc M.cf) M.fup M.env
            { set_inputs M ((M.calculate s0).1) with
              dirty := make_dirty M.g M.fmd M.env
                (set_inputs M ((M.calculate s0).1)).dirty } with
          vals := M.aggregate (update M.g (totalCalc M.cf) M.fup M.env
            { set_inputs M ((M.calculate s0).1) with
              dirty := make_dirty M.g M.fmd M.env
                (set_inputs M ((M.calculate s0).1)).dirty }).vals } := by
    rw [hr2def]
    show (if (update M.g (totalCalc M.cf) M.fup M.env
        { set_inputs M ((M.calculate s0).1) with
          dirty := make_dirty M.g M.fmd M.env
            (set_inputs M ((M.calculate s0).1)).dirty }).ab then _ else _)
      = _
    simp [hU2ab]
  have hnoop : applyOrder M.cf δ ((M.calculate s0).1).vals
      = ((M.calculate s0).1).vals := by
    refine applyOrder_noop M.cf M.readS M.writeS hWf hRd δ
      (applyWrites M.inputs s0.vals) ((M.calculate s0).1).vals
      hO1 hOs hO2 ?_
    intro x hx
    obtain ⟨m, hm, hx2⟩ := hx
    rw [hr1vals]
    exact hAWf _ x (hLA m hm x hx2)
  have hU2vals : (update M.g (totalCalc M.cf) M.fup M.env
      { set_inputs M ((M.calculate s0).1) with
        dirty := make_dirty M.g M.fmd M.env
          (set_inputs M ((M.calculate s0).1)).dirty }).vals
      = ((M.calculate s0).1).vals := by
    rw [h2v]
    have hE2vals : ({ set_inputs M ((M.calculate s0).1) with
        dirty := make_dirty M.g M.fmd M.env
          (set_inputs M ((M.calculate s0).1)).dirty } : St V).vals
        = ((M.calculate s0).1).vals := by
      show (set_inputs M ((M.calculate s0).1)).vals = _
      exact hvals2
    rw [hE2vals, hδ2]
    exact hnoop
  have hagg : M.aggregate ((M.calculate s0).1).vals
      = ((M.calculate s0).1).vals := by
    funext x
    by_cases hx : x ∈ M.writeA
    · have hread : ∀ l ∈ M.readA, ((M.calculate s0).1).vals l
          = applyOrder M.cf δ (applyWrites M.inputs s0.vals) l := by
        intro l hl
        rw [hr1vals]
        exact hAWf _ l (hRA l hl)
      rw [hARd ((M.calculate s0).1).vals
        (applyOrder M.cf δ (applyWrites M.inputs s0.vals)) hread x hx,
        hr1vals]
    · exact hAWf _ x hx
  have hr2vals : ((M.calculate ((M.calculate s0).1)).1).vals
      = ((M.calculate s0).1).vals := by
    rw [hr2eq]
    show M.aggregate (update M.g (totalCalc M.cf) M.fup M.env
      { set_inputs M ((M.calculate s0).1) with
        dirty := make_dirty M.g M.fmd M.env
          (set_inputs M ((M.calculate s0).1)).dirty }).vals = _
    rw [hU2vals]
    exact hagg
  refine ⟨hr2vals, ?_⟩
  have hsnd : ∀ s : St V,
      (M.calculate s).2 = M.outs.map ((M.calculate s).1).vals :=
    fun s => rfl
  rw [hsnd, hsnd, hr2vals]

/-- Witness for C3 on the concrete engine `M3`: all discipline hypotheses
hold, the first `calculate` completes, and the second `calculate` returns
the same output mapping. -/
theorem C3_calculate_idempotent_witness :
    (M3.calculate ((M3.calculate s3).1)).2 = (M3.calculate s3).2 := by
  refine (C3_calculate_idempotent M3 s3 ?_ ?_ ?_ ?_ (fun n => 2 - n)
    ?_ (by decide) (by decide) rfl rfl [0, 1, 2] (by decide)
    (by decide) (by decide) (by decide) ?_ (by decide)
    (by decide) (by decide)).2
  · intro n v l hl
    by_cases hn : n = 1
    · subst hn
      simp only [M3] at hl ⊢
      have hl2 : l ≠ 2 := by simpa using hl
      simp [hl2]
    · simp [M3, hn]
  · intro n v w hvw l hlw
    by_cases hn : n = 1
    · subst hn
      simp only [M3] at hvw hlw ⊢
      have hl2 : l = 2 := by simpa using hlw
      subst hl2
      have h0 : v 0 = w 0 := hvw 0 (by simp)
      have h1 : v 1 = w 1 := hvw 1 (by simp)
      simp [h0, h1]
    · simp [M3, hn] at hlw
  · intro v l hl
    have hl3 : l ≠ 3 := by simpa [M3] using hl
    simp [M3, hl3]
  · intro v w hvw l hlw
    have hl3 : l = 3 := by simpa [M3] using hlw
    subst hl3
    have h2 : v 2 = w 2 := hvw 2 (by simp [M3])
    simp [M3, h2]
  · intro u v2 hv2
    by_cases hu : u = 0
    · subst hu
      simp [M3] at hv2
      subst hv2
      decide
    · by_cases hu1 : u = 1
      · subst hu1
        simp [M3] at hv2
        subst hv2
        decide
      · simp [M3, hu, hu1] at hv2
  · intro m hm x hx hxw
    have hx3 : x = 3 := by simpa [M3] using hxw
    subst hx3
    fin_cases hm <;> simp [M3] at hx
